import Mathlib

/-!
Verification of the `consistent` package (consistent hashing with bounded
loads) of the repository, shallowly embedded from `src/consistent/consistent.go`.

Modelling conventions:
* A `Member` is identified by its `String()` name (the code only ever uses the
  name, for hashing and as a map key), so members are modelled as `String`s.
* Byte slices are modelled as `List Nat` (one entry per byte / char code);
  the pluggable 64-bit hash function `HashFunc` is an arbitrary
  `List Nat → Nat`.
* Go maps are modelled as association lists with unique keys; map assignment
  is insert-or-overwrite, `delete` removes the key, lookup of an absent key
  yields the zero value (`Option.getD`).
* `loads` holds `float64` values in Go, but every value it ever holds is a
  whole number (loads are only ever incremented by 1 from 0) and `math.Ceil`
  returns an integral value, so all float arithmetic in the code is exact on
  integers; loads are therefore modelled as `Nat` and the average load as an
  integer (`ℤ`), with the load factor `config.load` kept exact as `ℚ`.
* The two `panic` sites reachable from `distributePartitions` (the
  "not enough room to distribute partitions" panic and the nil-pointer
  dereference of `*c.ring[i]` on a dangling `sortedSet` entry) are modelled
  as `Except.error` values of type `DistErr`.
-/

namespace LBHashing

/-- Association-list lookup: first entry with the given key, mirroring Go map
lookup (`v, ok := m[k]`). -/
def lookupA {α β : Type} [DecidableEq α] (k : α) : List (α × β) → Option β
  | [] => none
  | (a, b) :: t => if a = k then some b else lookupA k t

/-- Association-list insert-or-overwrite, mirroring Go map assignment
(`m[k] = v`). -/
def insertA {α β : Type} [DecidableEq α] (k : α) (v : β) : List (α × β) → List (α × β)
  | [] => [(k, v)]
  | (a, b) :: t => if a = k then (k, v) :: t else (a, b) :: insertA k v t

/-- Association-list key removal, mirroring Go `delete(m, k)`. -/
def eraseA {α β : Type} [DecidableEq α] (k : α) : List (α × β) → List (α × β)
  | [] => []
  | (a, b) :: t => if a = k then t else (a, b) :: eraseA k t

/-- Keys of an association list. -/
def keysA {α β : Type} (m : List (α × β)) : List α := m.map Prod.fst

/-- Byte slices are lists of byte values. -/
abbrev Bytes := List Nat

/-- Models `[]byte(s)` for a Go string: one entry per character code (for the
ASCII names used throughout, identical to the UTF-8 bytes). -/
def strBytes (s : String) : Bytes := s.data.map Char.toNat

/-- Models `binary.LittleEndian.PutUint64(bs, partID)`: the 8 little-endian
bytes of a 64-bit value. -/
def leBytes8 (n : Nat) : Bytes := (List.range 8).map fun i => n / 256 ^ i % 256

/-- Models the pluggable `HashFunc` interface (`Sum64([]byte) uint64`). -/
abbrev HashFunc := Bytes → Nat

/-- Models `[]byte(fmt.Sprintf("%s%d", member.String(), i))`, the key of the
i-th virtual node of a member. -/
def vnodeKey (name : String) (i : Nat) : Bytes := strBytes (name ++ toString i)

/-- Models `Config` (the `HashFunc` field is passed separately, since the
code panics at construction when it is nil: the model only represents
configurations that pass that check). -/
structure Config where
  partitionCount : Nat
  replicationFactor : Nat
  load : ℚ
  deriving DecidableEq

/-- Models the default substitution performed at the top of `New`:
zero-valued fields are replaced by `DefaultPartitionCount = 271`,
`DefaultReplicationFactor = 20`, `DefaultLoad = 1.25`. -/
def applyDefaults (cfg : Config) : Config :=
  { partitionCount := if cfg.partitionCount = 0 then 271 else cfg.partitionCount
    replicationFactor := if cfg.replicationFactor = 0 then 20 else cfg.replicationFactor
    load := if cfg.load = 0 then (5 : ℚ) / 4 else cfg.load }

/-- Models the `Consistent` struct.  `members` is the key set of the
`members` map (values are just pointers to the named member),
`ring` maps virtual-node hash values to member names, `partitions` maps
partition ids to owner names, `loads` maps member names to partition
counts. -/
structure Consistent where
  config : Config
  hashFunc : HashFunc
  sortedSet : List Nat
  partitionCount : Nat
  loads : List (String × Nat)
  members : List String
  partitions : List (Nat × String)
  ring : List (Nat × String)

/-- Integer ceiling of `x / d` for a positive denominator `d`, computed with
floor division; executable stand-in for `math.Ceil` on the exact rational. -/
def ceilIntDen (x : ℤ) (d : Nat) : ℤ := -(Int.fdiv (-x) (d : ℤ))

/-- Models `averageLoad`: `0` when there are no members, otherwise
`math.Ceil(float64(c.partitionCount/uint64(len(c.members))) * c.config.Load)`.
Note the inner division `c.partitionCount/uint64(len(c.members))` is Go
integer (floor) division; the multiplication by the load factor and the
ceiling are computed exactly, here over `ℚ` via `ceilIntDen`. -/
def averageLoad (c : Consistent) : ℤ :=
  if c.members.length = 0 then 0
  else ceilIntDen (((c.partitionCount / c.members.length : Nat) : ℤ) * c.config.load.num)
    c.config.load.den

/-- Models `AverageLoad` (the exported wrapper just takes the read lock). -/
def AverageLoad (c : Consistent) : ℤ := averageLoad c

/-- Abnormal terminations of the distribution pass: `noRoom` models the
`panic("not enough room to distribute partitions")`, `nilMember` models the
nil-pointer dereference in `member := *c.ring[i]` when a `sortedSet` entry
has no ring entry. -/
inductive DistErr where
  | noRoom
  | nilMember
  deriving DecidableEq

/-- Models the `for` loop of `distributeWithLoad`.  The Go loop increments
`count` and panics as soon as `count >= len(c.sortedSet)` *before* examining
the virtual node at `idx`; hence at most `len(sortedSet) - 1` virtual nodes
are ever examined, and `steps` here is the number of examinations remaining
(called with `steps = sortedSet.length - 1`). -/
def distributeWithLoadAux (ring : List (Nat × String)) (ss : List Nat) (avg : ℤ)
    (partID : Nat) :
    Nat → Nat → List (Nat × String) → List (String × Nat) →
      Except DistErr (List (Nat × String) × List (String × Nat))
  | 0, _, _, _ => .error .noRoom
  | steps + 1, idx, parts, loads =>
    match ss.get? idx with
    | none => .error .nilMember
    | some i =>
      match lookupA i ring with
      | none => .error .nilMember
      | some member =>
        let load := (lookupA member loads).getD 0
        if ((load : ℤ) + 1 ≤ avg) then
          .ok (insertA partID member parts, insertA member (load + 1) loads)
        else
          let idx1 := idx + 1
          distributeWithLoadAux ring ss avg partID steps
            (if ss.length ≤ idx1 then 0 else idx1) parts loads

/-- Models `distributeWithLoad(partID, idx, partitions, loads)`: computes the
average load once, then runs the bounded circular probe. -/
def distributeWithLoad (c : Consistent) (partID idx : Nat)
    (parts : List (Nat × String)) (loads : List (String × Nat)) :
    Except DistErr (List (Nat × String) × List (String × Nat)) :=
  distributeWithLoadAux c.ring c.sortedSet (averageLoad c) partID
    (c.sortedSet.length - 1) idx parts loads

/-- Models `sort.Search(len(ss), func(i) { return ss[i] >= key })`: on the
ascending-sorted `sortedSet`, binary search returns the first index whose
entry is `>= key`, or `len(ss)` when there is none. -/
def searchGE (ss : List Nat) (key : Nat) : Nat :=
  match ss.findIdx? (fun h => key ≤ h) with
  | some i => i
  | none => ss.length

/-- Models one iteration of the `for partID` loop of `distributePartitions`:
hash the partition id, binary-search the first virtual node at or after the
hash (wrapping to 0 past the end), and run the bounded probe from there. -/
def distributeStep (c : Consistent) (partID : Nat)
    (parts : List (Nat × String)) (loads : List (String × Nat)) :
    Except DistErr (List (Nat × String) × List (String × Nat)) :=
  let key := c.hashFunc (leBytes8 partID)
  let idx0 := searchGE c.sortedSet key
  let idx := if c.sortedSet.length ≤ idx0 then 0 else idx0
  distributeWithLoad c partID idx parts loads

/-- Models the body of the `for partID` loop of `distributePartitions`,
folded over the remaining partition ids. -/
def distributePartitionsAux (c : Consistent) :
    List Nat → List (Nat × String) → List (String × Nat) →
      Except DistErr (List (Nat × String) × List (String × Nat))
  | [], parts, loads => .ok (parts, loads)
  | partID :: rest, parts, loads =>
    match distributeStep c partID parts loads with
    | .error e => .error e
    | .ok (parts1, loads1) => distributePartitionsAux c rest parts1 loads1

/-- Models `distributePartitions`: rebuilds the partition and load tables
from scratch for partition ids `0 .. partitionCount-1` and installs them. -/
def distributePartitions (c : Consistent) : Except DistErr Consistent :=
  (distributePartitionsAux c (List.range c.partitionCount) [] []).map
    fun pl => { c with partitions := pl.1, loads := pl.2 }

/-- Models the unexported `add`: insert the R virtual-node hashes into the
ring map, append them to `sortedSet`, re-sort `sortedSet` ascending, and
record the member name (map assignment, so a present name stays present
once). -/
def add (c : Consistent) (name : String) : Consistent :=
  let rs := (List.range c.config.replicationFactor).foldl
    (fun (acc : List (Nat × String) × List Nat) i =>
      (insertA (c.hashFunc (vnodeKey name i)) name acc.1,
        acc.2 ++ [c.hashFunc (vnodeKey name i)]))
    (c.ring, c.sortedSet)
  { c with
    ring := rs.1
    sortedSet := List.insertionSort (· ≤ ·) rs.2
    members := if name ∈ c.members then c.members else c.members ++ [name] }

/-- Models the exported `Add`: no-op when the name is already a member,
otherwise `add` followed by a full redistribution. -/
def Add (c : Consistent) (name : String) : Except DistErr Consistent :=
  if name ∈ c.members then .ok c
  else distributePartitions (add c name)

/-- Models `delSlice`: remove the first occurrence of `val` from the slice
(the Go loop breaks after the first hit). -/
def delSlice (val : Nat) : List Nat → List Nat
  | [] => []
  | h :: t => if h = val then t else h :: delSlice val t

/-- Models the exported `Remove`: no-op for an unknown name; otherwise the
R virtual-node hashes are recomputed and deleted from the ring map and from
`sortedSet`, the member record is deleted, and then either the partition
table alone is reset (when the member set became empty — note the load table
is left as it was) or a full redistribution runs. -/
def Remove (c : Consistent) (name : String) : Except DistErr Consistent :=
  if name ∈ c.members then
    let rs := (List.range c.config.replicationFactor).foldl
      (fun (acc : List (Nat × String) × List Nat) i =>
        (eraseA (c.hashFunc (vnodeKey name i)) acc.1,
          delSlice (c.hashFunc (vnodeKey name i)) acc.2))
      (c.ring, c.sortedSet)
    let c1 : Consistent :=
      { c with ring := rs.1, sortedSet := rs.2, members := c.members.erase name }
    if c1.members.length = 0 then .ok { c1 with partitions := [] }
    else distributePartitions c1
  else .ok c

/-- Models the `Consistent` value built by `New` before any member is added
(all tables empty, defaults applied). -/
def initC (cfg : Config) (hf : HashFunc) : Consistent :=
  let cfg1 := applyDefaults cfg
  { config := cfg1
    hashFunc := hf
    sortedSet := []
    partitionCount := cfg1.partitionCount
    loads := []
    members := []
    partitions := []
    ring := [] }

/-- Models `New(members, config)`.  The `members` slice is `Option`al to
keep Go's nil / empty-non-nil distinction: members are added one by one with
the unexported `add` (no membership no-op check and no per-member
redistribution), and the distribution pass runs exactly when the slice is
non-nil. -/
def New (members : Option (List String)) (cfg : Config) (hf : HashFunc) :
    Except DistErr Consistent :=
  match members with
  | none => .ok (initC cfg hf)
  | some l => distributePartitions (l.foldl add (initC cfg hf))

/-- Models `FindPartitionID`: `int(c.hashFunc.Sum64(key) % c.partitionCount)`. -/
def FindPartitionID (c : Consistent) (key : Bytes) : Nat :=
  c.hashFunc key % c.partitionCount

/-- Models the unexported `getPartitionOwner`: the member recorded for the
partition id, or `none` (nil `Member`) when the table has no entry. -/
def getPartitionOwner (c : Consistent) (partID : Nat) : Option String :=
  lookupA partID c.partitions

/-- Models the exported `GetPartitionOwner` (wrapper taking the read lock). -/
def GetPartitionOwner (c : Consistent) (partID : Nat) : Option String :=
  getPartitionOwner c partID

/-- Models `LocateKey`: owner of the key's partition. -/
def LocateKey (c : Consistent) (key : Bytes) : Option String :=
  GetPartitionOwner c (FindPartitionID c key)

/-- Models `LoadDistribution` (returns a copy of the load table). -/
def LoadDistribution (c : Consistent) : List (String × Nat) := c.loads

/-- Abnormal results of `getClosestN`: `insufficientMembers` models the
returned `ErrInsufficientMemberCount`; `nilOwner` models the panic from
calling `owner.String()` when `getPartitionOwner` returned nil while the
member map is non-empty. -/
inductive GetErr where
  | insufficientMembers
  | nilOwner
  deriving DecidableEq

/-- Models the second loop of `getClosestN` (`for len(res) < count`): walk
the sorted member-name hashes circularly from `idx`, appending the member of
each visited hash.  `fuel` is `count - len(res)`, the exact number of
iterations the Go loop performs. -/
def collectLoop (keys : List Nat) (kMems : List (Nat × String)) :
    Nat → Nat → List String → List String
  | 0, _, res => res
  | fuel + 1, idx, res =>
    let idx1 := idx + 1
    let idx2 := if keys.length ≤ idx1 then 0 else idx1
    collectLoop keys kMems fuel idx2
      (res ++ [(lookupA (keys.getD idx2 0) kMems).getD ""])

/-- The `kMems` map of `getClosestN`: member-name hash to member, built by
iterating the member map (modelled in `members` list order; with an
injective hash the iteration order does not affect the result). -/
def closestKMems (c : Consistent) : List (Nat × String) :=
  c.members.map fun nm => (c.hashFunc (strBytes nm), nm)

/-- The ascending-sorted member-name hashes of `getClosestN`. -/
def closestKeys (c : Consistent) : List Nat :=
  List.insertionSort (· ≤ ·) (c.members.map fun nm => c.hashFunc (strBytes nm))

/-- Models the unexported `getClosestN(partID, count)`: error when `count`
exceeds the member count; otherwise hash all member names, sort those hashes
ascending, locate the partition owner's hash in that order, and collect
members circularly forward until `count` members are gathered (the owner,
when found, is the first result and the walk starts right after it). -/
def getClosestN (c : Consistent) (partID : Nat) (count : Nat) :
    Except GetErr (List String) :=
  if c.members.length < count then .error .insufficientMembers
  else if c.members = [] then .ok (collectLoop [] [] count 0 [])
  else
    match getPartitionOwner c partID with
    | none => .error .nilOwner
    | some owner =>
      let ownerKey := if owner ∈ c.members
        then c.hashFunc (strBytes owner) else 0
      match (closestKeys c).findIdx? (fun k => k = ownerKey) with
      | some i =>
        .ok (collectLoop (closestKeys c) (closestKMems c) (count - 1) i
          [(lookupA ((closestKeys c).getD i 0) (closestKMems c)).getD ""])
      | none =>
        .ok (collectLoop (closestKeys c) (closestKMems c) count
          (closestKeys c).length [])

/-- Models the exported `GetClosestN(key, count)`. -/
def GetClosestN (c : Consistent) (key : Bytes) (count : Nat) :
    Except GetErr (List String) :=
  getClosestN c (FindPartitionID c key) count

/-- Models the exported `GetClosestNForPartition(partID, count)`. -/
def GetClosestNForPartition (c : Consistent) (partID : Nat) (count : Nat) :
    Except GetErr (List String) :=
  getClosestN c partID count

/-- Decidable equality for `Except` results (used to evaluate concrete runs). -/
def exceptDecEq {ε α : Type} [DecidableEq ε] [DecidableEq α] :
    (a b : Except ε α) → Decidable (a = b)
  | .error a, .error b =>
    if h : a = b then isTrue (by rw [h]) else isFalse (fun hh => h (by cases hh; rfl))
  | .error _, .ok _ => isFalse (fun hh => by cases hh)
  | .ok _, .error _ => isFalse (fun hh => by cases hh)
  | .ok a, .ok b =>
    if h : a = b then isTrue (by rw [h]) else isFalse (fun hh => h (by cases hh; rfl))

instance {ε α : Type} [DecidableEq ε] [DecidableEq α] : DecidableEq (Except ε α) :=
  exceptDecEq

/-! ### Association-list lemmas -/

theorem lookupA_insertA_self {α β : Type} [DecidableEq α] (k : α) (v : β)
    (m : List (α × β)) : lookupA k (insertA k v m) = some v := by
  induction m with
  | nil => simp [insertA, lookupA]
  | cons hd t ih =>
    obtain ⟨a, b⟩ := hd
    by_cases h : a = k
    · simp [insertA, h, lookupA]
    · simp [insertA, h, lookupA, ih]

theorem lookupA_insertA_ne {α β : Type} [DecidableEq α] {k k' : α} (v : β)
    (m : List (α × β)) (hne : k' ≠ k) :
    lookupA k' (insertA k v m) = lookupA k' m := by
  have hne2 : ¬ (k = k') := fun h => hne h.symm
  induction m with
  | nil => simp [insertA, lookupA, hne2]
  | cons hd t ih =>
    obtain ⟨a, b⟩ := hd
    by_cases h : a = k
    · have h3 : ¬ (a = k') := by rw [h]; exact hne2
      simp [insertA, h, lookupA, h3, hne2]
    · by_cases h2 : a = k'
      · simp [insertA, h, lookupA, h2, hne]
      · simp [insertA, h, lookupA, h2, ih]

theorem mem_insertA {α β : Type} [DecidableEq α] {k : α} {v : β}
    {m : List (α × β)} {kv : α × β} (hkv : kv ∈ insertA k v m) :
    kv = (k, v) ∨ kv ∈ m := by
  induction m with
  | nil => simpa [insertA] using hkv
  | cons hd t ih =>
    obtain ⟨a, b⟩ := hd
    by_cases h : a = k
    · rw [show insertA k v ((a, b) :: t) = (k, v) :: t by simp [insertA, h]] at hkv
      rcases List.mem_cons.1 hkv with h1 | h1
      · exact Or.inl h1
      · exact Or.inr (List.mem_cons_of_mem _ h1)
    · rw [show insertA k v ((a, b) :: t) = (a, b) :: insertA k v t by
        simp [insertA, h]] at hkv
      rcases List.mem_cons.1 hkv with h1 | h1
      · exact Or.inr (by simp [h1])
      · rcases ih h1 with h2 | h2
        · exact Or.inl h2
        · exact Or.inr (List.mem_cons_of_mem _ h2)

theorem lookupA_mem {α β : Type} [DecidableEq α] {k : α} {v : β} :
    ∀ {m : List (α × β)}, lookupA k m = some v → (k, v) ∈ m
  | [], h => by simp [lookupA] at h
  | (a, b) :: t, h => by
    by_cases h1 : a = k
    · rw [lookupA, if_pos h1] at h
      cases h
      exact List.mem_cons.2 (Or.inl (by rw [h1]))
    · rw [lookupA, if_neg h1] at h
      exact List.mem_cons_of_mem _ (lookupA_mem h)

theorem lookupA_eq_none_iff {α β : Type} [DecidableEq α] {k : α}
    {m : List (α × β)} : lookupA k m = none ↔ k ∉ keysA m := by
  induction m with
  | nil => simp [lookupA, keysA]
  | cons hd t ih =>
    obtain ⟨a, b⟩ := hd
    by_cases h : a = k
    · simp [lookupA, h, keysA]
    · have h2 : ¬ (k = a) := fun hh => h hh.symm
      simp [lookupA, h, keysA, ih, h2]

theorem keysA_insertA {α β : Type} [DecidableEq α] (k : α) (v : β)
    (m : List (α × β)) :
    keysA (insertA k v m) = if k ∈ keysA m then keysA m else keysA m ++ [k] := by
  induction m with
  | nil => simp [insertA, keysA]
  | cons hd t ih =>
    obtain ⟨a, b⟩ := hd
    by_cases h : a = k
    · simp [insertA, h, keysA]
    · have h2 : ¬ (k = a) := fun hh => h hh.symm
      by_cases h3 : k ∈ keysA t
      · rw [show insertA k v ((a, b) :: t) = (a, b) :: insertA k v t by
          simp [insertA, h]]
        rw [show keysA ((a, b) :: insertA k v t) = a :: keysA (insertA k v t) from rfl]
        rw [ih, if_pos h3]
        rw [show keysA ((a, b) :: t) = a :: keysA t from rfl]
        rw [if_pos (List.mem_cons.2 (Or.inr h3))]
      · rw [show insertA k v ((a, b) :: t) = (a, b) :: insertA k v t by
          simp [insertA, h]]
        rw [show keysA ((a, b) :: insertA k v t) = a :: keysA (insertA k v t) from rfl]
        rw [ih, if_neg h3]
        rw [show keysA ((a, b) :: t) = a :: keysA t from rfl]
        rw [if_neg (by simp [h2, h3])]
        simp

theorem keysA_insertA_nodup {α β : Type} [DecidableEq α] (k : α) (v : β)
    {m : List (α × β)} (h : (keysA m).Nodup) :
    (keysA (insertA k v m)).Nodup := by
  rw [keysA_insertA]
  by_cases h2 : k ∈ keysA m
  · simpa [h2] using h
  · simpa [h2, List.nodup_append, h] using h2

theorem eraseA_sublist {α β : Type} [DecidableEq α] (k : α) :
    ∀ (m : List (α × β)), (eraseA k m).Sublist m
  | [] => by simp [eraseA]
  | (a, b) :: t => by
    by_cases h : a = k
    · simpa [eraseA, h] using List.sublist_cons_self (a, b) t
    · simpa [eraseA, h] using (eraseA_sublist k t).cons₂ (a, b)

theorem mem_of_mem_eraseA {α β : Type} [DecidableEq α] {k : α}
    {m : List (α × β)} {kv : α × β} (h : kv ∈ eraseA k m) : kv ∈ m :=
  (eraseA_sublist k m).mem h

theorem keysA_eraseA_nodup {α β : Type} [DecidableEq α] (k : α)
    {m : List (α × β)} (h : (keysA m).Nodup) : (keysA (eraseA k m)).Nodup :=
  ((eraseA_sublist k m).map Prod.fst).nodup h

theorem not_mem_eraseA {α β : Type} [DecidableEq α] {k : α} (v : β) :
    ∀ {m : List (α × β)}, (keysA m).Nodup → (k, v) ∉ eraseA k m
  | [], _, h => by simp [eraseA] at h
  | (a, b) :: t, hnd, h => by
    have hnd2 : a ∉ keysA t ∧ (keysA t).Nodup := by
      rw [show keysA ((a, b) :: t) = a :: keysA t from rfl] at hnd
      exact List.nodup_cons.1 hnd
    by_cases h1 : a = k
    · rw [eraseA, if_pos h1] at h
      have hk : k ∈ keysA t := by
        have := List.mem_map_of_mem Prod.fst h
        simpa [keysA] using this
      exact hnd2.1 (h1 ▸ hk)
    · rw [eraseA, if_neg h1] at h
      rcases List.mem_cons.1 h with h2 | h2
      · exact h1 (congrArg Prod.fst h2).symm
      · exact not_mem_eraseA v hnd2.2 h2

/-- Sum of the values of a load table. -/
def sumLoads (l : List (String × Nat)) : Nat := (l.map Prod.snd).sum

theorem sumLoads_insertA_bump (m : String) (l : List (String × Nat)) :
    sumLoads (insertA m ((lookupA m l).getD 0 + 1) l) = sumLoads l + 1 := by
  induction l with
  | nil => simp [insertA, sumLoads, lookupA]
  | cons hd t ih =>
    obtain ⟨a, b⟩ := hd
    by_cases h : a = m
    · simp [insertA, h, sumLoads, lookupA]
      omega
    · simp only [insertA, h, if_neg, not_false_iff, lookupA, sumLoads,
        List.map_cons, List.sum_cons] at ih ⊢
      omega

theorem lookupA_map_sum (l : List (String × Nat)) :
    ∀ (ms : List String), (keysA l).Nodup → ms.Nodup →
      (∀ k ∈ keysA l, k ∈ ms) →
      (ms.map fun m => (lookupA m l).getD 0).sum = sumLoads l := by
  induction l with
  | nil =>
    intro ms _ _ _
    simp [lookupA, sumLoads]
  | cons hd t ih =>
    obtain ⟨a, b⟩ := hd
    intro ms hk hms hsub
    have hkeys : keysA ((a, b) :: t) = a :: keysA t := rfl
    have hknd : a ∉ keysA t ∧ (keysA t).Nodup := by
      rw [hkeys] at hk
      exact List.nodup_cons.1 hk
    have hhd : a ∈ ms := hsub a (by rw [hkeys]; exact List.mem_cons_self a _)
    have hperm : ms.Perm (a :: ms.erase a) := List.perm_cons_erase hhd
    have hsum : (ms.map fun m => (lookupA m ((a, b) :: t)).getD 0).sum
        = ((a :: ms.erase a).map fun m => (lookupA m ((a, b) :: t)).getD 0).sum :=
      (hperm.map _).sum_eq
    rw [hsum]
    simp only [List.map_cons, List.sum_cons]
    have h1 : (lookupA a ((a, b) :: t)).getD 0 = b := by
      simp [lookupA]
    have h2 : ∀ m ∈ ms.erase a, (lookupA m ((a, b) :: t)).getD 0
        = (lookupA m t).getD 0 := by
      intro m hm
      have hne : m ≠ a := ((List.Nodup.mem_erase_iff hms).1 hm).1
      have hne2 : ¬ (a = m) := fun h => hne h.symm
      simp [lookupA, hne2]
    have h3 : ((ms.erase a).map fun m => (lookupA m ((a, b) :: t)).getD 0).sum
        = ((ms.erase a).map fun m => (lookupA m t).getD 0).sum := by
      congr 1
      exact List.map_congr_left h2
    rw [h1, h3, ih (ms.erase a) hknd.2 (hms.erase a) ?_]
    · simp [sumLoads]
    · intro k hkm
      have hkms : k ∈ ms := hsub k (by rw [hkeys]; exact List.mem_cons_of_mem _ hkm)
      have hne : k ≠ a := fun h => hknd.1 (h ▸ hkm)
      exact (List.Nodup.mem_erase_iff hms).2 ⟨hne, hkms⟩

/-! ### Generic helper lemmas -/

theorem wrap_eq_mod {n idx : Nat} (h : idx < n) :
    (if n ≤ idx + 1 then 0 else idx + 1) = (idx + 1) % n := by
  by_cases h2 : n ≤ idx + 1
  · have h3 : idx + 1 = n := Nat.le_antisymm h h2
    rw [if_pos h2, h3, Nat.mod_self]
  · rw [if_neg h2, Nat.mod_eq_of_lt (Nat.lt_of_not_le h2)]

theorem foldl_pair_split {α β γ : Type} (f : γ → α → α) (g : γ → β → β) :
    ∀ (l : List γ) (a : α) (b : β),
      l.foldl (fun acc i => (f i acc.1, g i acc.2)) (a, b)
        = (l.foldl (fun x i => f i x) a, l.foldl (fun x i => g i x) b)
  | [], _, _ => rfl
  | i :: t, a, b => foldl_pair_split f g t (f i a) (g i b)

theorem foldl_append_map {α β : Type} (fn : α → β) :
    ∀ (l : List α) (s : List β),
      l.foldl (fun acc i => acc ++ [fn i]) s = s ++ l.map fn
  | [], s => by simp
  | i :: t, s => by
    rw [List.foldl_cons, foldl_append_map fn t (s ++ [fn i])]
    simp

theorem mod_add_inj {n i j1 j2 : Nat} (h1 : j1 < n) (h2 : j2 < n)
    (h : (i + j1) % n = (i + j2) % n) : j1 = j2 := by
  have hm : j1 ≡ j2 [MOD n] := Nat.ModEq.add_left_cancel' i h
  calc j1 = j1 % n := (Nat.mod_eq_of_lt h1).symm
    _ = j2 % n := hm
    _ = j2 := Nat.mod_eq_of_lt h2

theorem findIdxQ_some {α : Type} [Inhabited α] (p : α → Bool) :
    ∀ (l : List α) (i j : Nat), l.findIdx? p i = some j →
      ∃ j0, j = i + j0 ∧ j0 < l.length ∧ p (l.getD j0 default) = true ∧
        ∀ j' < j0, p (l.getD j' default) = false
  | [], i, j, h => by simp [List.findIdx?] at h
  | a :: t, i, j, h => by
    by_cases hp : p a
    · rw [List.findIdx?, if_pos hp] at h
      cases h
      exact ⟨0, by omega, by simp, by simpa using hp, fun j' hj' => by omega⟩
    · rw [List.findIdx?, if_neg hp] at h
      obtain ⟨j0, hj, hlt, hpj, hmin⟩ := findIdxQ_some p t (i + 1) j h
      refine ⟨j0 + 1, by omega, by simpa using hlt, by simpa using hpj, ?_⟩
      intro j' hj'
      cases j' with
      | zero => simpa using eq_false_of_ne_true hp
      | succ j2 =>
        have := hmin j2 (by omega)
        simpa using this

theorem findIdxQ_isSome_of_mem {α : Type} (p : α → Bool) :
    ∀ (l : List α) (i : Nat), (∃ x ∈ l, p x = true) →
      (l.findIdx? p i).isSome = true
  | [], _, h => by simp at h
  | a :: t, i, h => by
    by_cases hp : p a
    · rw [List.findIdx?, if_pos hp]
      rfl
    · rw [List.findIdx?, if_neg hp]
      obtain ⟨x, hx, hpx⟩ := h
      rcases List.mem_cons.1 hx with h1 | h1
      · exact absurd (h1 ▸ hpx) hp
      · exact findIdxQ_isSome_of_mem p t (i + 1) ⟨x, h1, hpx⟩

/-! ### Average-load lemmas -/

theorem ceilIntDen_eq (x : ℤ) (d : Nat) (hd : d ≠ 0) :
    ceilIntDen x d = ⌈(x : ℚ) / (d : ℚ)⌉ := by
  unfold ceilIntDen
  rw [Int.fdiv_eq_ediv _ (by exact_mod_cast Nat.zero_le d)]
  rw [← Rat.floor_intCast_div_natCast (-x) d]
  rw [show ((-x : ℤ) : ℚ) / (d : ℚ) = -((x : ℚ) / (d : ℚ)) by push_cast; ring]
  rw [Int.floor_neg]
  simp

/-- The code's average load, rewritten as the exact ceiling formula with the
inner division being Go integer (floor) division. -/
theorem averageLoad_eq_spec (c : Consistent) (h : c.members.length ≠ 0) :
    averageLoad c
      = ⌈((c.partitionCount / c.members.length : Nat) : ℚ) * c.config.load⌉ := by
  unfold averageLoad
  rw [if_neg h, ceilIntDen_eq _ _ (Rat.den_pos c.config.load).ne']
  congr 1
  rw [Int.cast_mul, Int.cast_natCast, mul_div_assoc, Rat.num_div_den]

theorem averageLoad_of_empty (c : Consistent) (h : c.members = []) :
    averageLoad c = 0 := by
  unfold averageLoad
  rw [if_pos (by simp [h])]

/-! ### Probe lemmas -/

/-- Values of the ring map. -/
def ringVals (ring : List (Nat × String)) : List String := ring.map Prod.snd

/-- Successful probes assign the partition to some ring member whose bumped
load still fits under the average, and change nothing else. -/
theorem probe_ok_shape {ring : List (Nat × String)} {ss : List Nat} {avg : ℤ}
    {partID : Nat} :
    ∀ {steps idx : Nat} {parts : List (Nat × String)} {loads : List (String × Nat)}
      {out : List (Nat × String) × List (String × Nat)},
      distributeWithLoadAux ring ss avg partID steps idx parts loads = .ok out →
      ∃ m, m ∈ ringVals ring ∧
        out.1 = insertA partID m parts ∧
        out.2 = insertA m ((lookupA m loads).getD 0 + 1) loads ∧
        (((lookupA m loads).getD 0 : ℤ) + 1 ≤ avg) := by
  intro steps
  induction steps with
  | zero =>
    intro idx parts loads out h
    exact absurd h (by simp [distributeWithLoadAux])
  | succ n ih =>
    intro idx parts loads out h
    rw [distributeWithLoadAux] at h
    cases hget : ss.get? idx with
    | none => rw [hget] at h; cases h
    | some i =>
      rw [hget] at h
      dsimp only at h
      cases hlk : lookupA i ring with
      | none => rw [hlk] at h; cases h
      | some member =>
        rw [hlk] at h
        dsimp only at h
        by_cases hfit : (((lookupA member loads).getD 0 : ℕ) : ℤ) + 1 ≤ avg
        · rw [if_pos hfit] at h
          cases h
          exact ⟨member, List.mem_map_of_mem _ (lookupA_mem hlk), rfl, rfl, hfit⟩
        · rw [if_neg hfit] at h
          exact ih h

/-! ### Distribution-pass lemmas -/

/-- Invariant carried over the load table during a distribution pass. -/
def LoadsInv (avg : ℤ) (rv : List String) (l : List (String × Nat)) : Prop :=
  ∀ kv ∈ l, kv.1 ∈ rv ∧ 1 ≤ kv.2 ∧ (kv.2 : ℤ) ≤ avg

/-- A partition id has an owner in the table that is a ring value. -/
def goodOwner (rv : List String) (parts : List (Nat × String)) (pid : Nat) : Prop :=
  ∃ m, lookupA pid parts = some m ∧ m ∈ rv

theorem LoadsInv_bump {avg : ℤ} {rv : List String} {l : List (String × Nat)}
    (hInv : LoadsInv avg rv l) {m : String} (hm : m ∈ rv)
    (hfit : ((lookupA m l).getD 0 : ℤ) + 1 ≤ avg) :
    LoadsInv avg rv (insertA m ((lookupA m l).getD 0 + 1) l) := by
  intro kv hkv
  rcases mem_insertA hkv with h | h
  · subst h
    refine ⟨hm, by omega, ?_⟩
    push_cast
    omega
  · exact hInv kv h

theorem goodOwner_insertA {rv : List String} {parts : List (Nat × String)}
    {pid pid' : Nat} {m : String} (hm : m ∈ rv)
    (h : pid = pid' ∨ goodOwner rv parts pid) :
    goodOwner rv (insertA pid' m parts) pid := by
  rcases h with h | ⟨m2, hl, hm2⟩
  · subst h
    exact ⟨m, lookupA_insertA_self pid m parts, hm⟩
  · by_cases he : pid = pid'
    · subst he
      exact ⟨m, lookupA_insertA_self pid m parts, hm⟩
    · exact ⟨m2, by rw [lookupA_insertA_ne _ _ he]; exact hl, hm2⟩

/-- Shape of a successful `distributeStep`. -/
theorem distributeStep_ok_shape {c : Consistent} {partID : Nat}
    {parts : List (Nat × String)} {loads : List (String × Nat)}
    {out : List (Nat × String) × List (String × Nat)}
    (h : distributeStep c partID parts loads = .ok out) :
    ∃ m, m ∈ ringVals c.ring ∧
      out.1 = insertA partID m parts ∧
      out.2 = insertA m ((lookupA m loads).getD 0 + 1) loads ∧
      (((lookupA m loads).getD 0 : ℤ) + 1 ≤ averageLoad c) := by
  unfold distributeStep distributeWithLoad at h
  exact probe_ok_shape h

/-- A successful step forces the average load to be at least 1. -/
theorem distributeStep_ok_avg {c : Consistent} {partID : Nat}
    {parts : List (Nat × String)} {loads : List (String × Nat)}
    {out : List (Nat × String) × List (String × Nat)}
    (h : distributeStep c partID parts loads = .ok out) :
    1 ≤ averageLoad c := by
  obtain ⟨m, _, _, _, hfit⟩ := distributeStep_ok_shape h
  have h0 : (0 : ℤ) ≤ ((lookupA m loads).getD 0 : ℤ) := Int.natCast_nonneg _
  omega

/-- Accumulated facts over the partition-id fold of `distributePartitions`:
the total load grows by exactly one per placed partition, the per-entry load
invariant and key uniqueness are preserved, and every processed partition id
ends up with a good owner. -/
theorem distAux_facts (c : Consistent) :
    ∀ (pids : List Nat) (parts : List (Nat × String)) (loads : List (String × Nat))
      (out : List (Nat × String) × List (String × Nat)),
      distributePartitionsAux c pids parts loads = .ok out →
      sumLoads out.2 = sumLoads loads + pids.length ∧
      (LoadsInv (averageLoad c) (ringVals c.ring) loads →
        LoadsInv (averageLoad c) (ringVals c.ring) out.2) ∧
      ((keysA loads).Nodup → (keysA out.2).Nodup) ∧
      (∀ pid, (pid ∈ pids ∨ goodOwner (ringVals c.ring) parts pid) →
        goodOwner (ringVals c.ring) out.1 pid)
  | [], parts, loads, out, h => by
    cases h
    refine ⟨by simp, fun hI => hI, fun hn => hn, ?_⟩
    intro pid hpid
    rcases hpid with h | h
    · cases h
    · exact h
  | pid0 :: rest, parts, loads, out, h => by
    rw [distributePartitionsAux] at h
    cases hw : distributeStep c pid0 parts loads with
    | error e => rw [hw] at h; cases h
    | ok pl =>
      obtain ⟨p1, l1⟩ := pl
      rw [hw] at h
      dsimp only at h
      obtain ⟨m, hmrv, hp1, hl1, hfit⟩ := distributeStep_ok_shape hw
      dsimp only at hp1 hl1
      obtain ⟨hsum, hInv, hnd, hgood⟩ := distAux_facts c rest p1 l1 out h
      refine ⟨?_, ?_, ?_, ?_⟩
      · rw [hsum, hl1, sumLoads_insertA_bump]
        simp only [List.length_cons]
        omega
      · intro hI
        exact hInv (hl1 ▸ LoadsInv_bump hI hmrv hfit)
      · intro hn
        exact hnd (hl1 ▸ keysA_insertA_nodup m _ hn)
      · intro pid hpid
        rcases hpid with hmem | hg
        · rcases List.mem_cons.1 hmem with he | hr
          · exact hgood pid (Or.inr (hp1 ▸ goodOwner_insertA hmrv (Or.inl he)))
          · exact hgood pid (Or.inl hr)
        · exact hgood pid (Or.inr (hp1 ▸ goodOwner_insertA hmrv (Or.inr hg)))

/-- Structural content of a successful `distributePartitions`: all fields
other than the two tables are untouched, and the tables come from the fold. -/
theorem distributePartitions_ok_fields {c c' : Consistent}
    (h : distributePartitions c = .ok c') :
    c'.members = c.members ∧ c'.ring = c.ring ∧ c'.config = c.config ∧
    c'.partitionCount = c.partitionCount ∧ c'.sortedSet = c.sortedSet ∧
    c'.hashFunc = c.hashFunc ∧
    ∃ out, distributePartitionsAux c (List.range c.partitionCount) [] [] = .ok out ∧
      c'.partitions = out.1 ∧ c'.loads = out.2 := by
  unfold distributePartitions at h
  cases hout : distributePartitionsAux c (List.range c.partitionCount) [] [] with
  | error e => rw [hout] at h; cases h
  | ok pl =>
    rw [hout] at h
    cases h
    exact ⟨rfl, rfl, rfl, rfl, rfl, rfl, pl, rfl, rfl, rfl⟩

theorem mem_ringVals {ring : List (Nat × String)} {m : String} :
    m ∈ ringVals ring ↔ ∃ kv ∈ ring, kv.2 = m := by
  unfold ringVals
  simp [List.mem_map]

/-- Main facts about a successful full distribution pass over a ring whose
values are members: full coverage of `[0, P)` by members, sound load table
with per-entry bound, unique load keys, and total load equal to the
partition count. -/
theorem distributePartitions_ok_main {c c' : Consistent}
    (hrs : ∀ kv ∈ c.ring, kv.2 ∈ c.members)
    (h : distributePartitions c = .ok c') :
    (∀ pid < c'.partitionCount,
      ∃ m, lookupA pid c'.partitions = some m ∧ m ∈ c'.members) ∧
    (∀ kv ∈ c'.loads, kv.1 ∈ c'.members ∧ 1 ≤ kv.2 ∧ (kv.2 : ℤ) ≤ averageLoad c) ∧
    (keysA c'.loads).Nodup ∧
    sumLoads c'.loads = c.partitionCount := by
  obtain ⟨hm, hr, hcf, hpc, hss, hhf, out, hout, hparts, hloads⟩ :=
    distributePartitions_ok_fields h
  obtain ⟨hsum, hInv, hnd, hgood⟩ := distAux_facts c _ _ _ _ hout
  have hrv : ∀ x ∈ ringVals c.ring, x ∈ c.members := by
    intro x hx
    obtain ⟨kv, hkv, hkx⟩ := mem_ringVals.1 hx
    exact hkx ▸ hrs kv hkv
  refine ⟨?_, ?_, ?_, ?_⟩
  · intro pid hpid
    have hgp : goodOwner (ringVals c.ring) out.1 pid := by
      refine hgood pid (Or.inl ?_)
      rw [List.mem_range]
      rw [hpc] at hpid
      exact hpid
    obtain ⟨m2, hl, hm2⟩ := hgp
    exact ⟨m2, hparts ▸ hl, hm ▸ hrv m2 hm2⟩
  · intro kv hkv
    have := hInv (by intro kv2 h2; cases h2) kv (hloads ▸ hkv)
    exact ⟨hm ▸ hrv kv.1 this.1, this.2.1, this.2.2⟩
  · rw [hloads]
    exact hnd (by simp [keysA])
  · rw [hloads, hsum]
    simp [sumLoads]

/-- A successful pass for a positive partition count forces average load at
least 1 (partition 0 must have been placed). -/
theorem distributePartitions_ok_avg {c c' : Consistent}
    (hP : 0 < c.partitionCount) (h : distributePartitions c = .ok c') :
    1 ≤ averageLoad c := by
  obtain ⟨_, _, _, _, _, _, out, hout, _, _⟩ := distributePartitions_ok_fields h
  cases hR : List.range c.partitionCount with
  | nil =>
    rw [List.range_eq_nil] at hR
    omega
  | cons pid0 rest =>
    rw [hR, distributePartitionsAux] at hout
    cases hw : distributeStep c pid0 [] [] with
    | error e => rw [hw] at hout; cases hout
    | ok pl => exact distributeStep_ok_avg hw

/-! ### Ring and membership structural lemmas -/

theorem mem_foldl_insertA (keyf : Nat → Nat) (name : String) :
    ∀ (l : List Nat) (r : List (Nat × String)) {kv : Nat × String},
      kv ∈ l.foldl (fun r i => insertA (keyf i) name r) r →
      kv ∈ r ∨ ∃ i ∈ l, kv = (keyf i, name)
  | [], _, _, h => Or.inl h
  | i :: t, r, kv, h => by
    rcases mem_foldl_insertA keyf name t _ h with h1 | ⟨i2, hi2, hkv⟩
    · rcases mem_insertA h1 with h2 | h2
      · exact Or.inr ⟨i, List.mem_cons_self i t, h2⟩
      · exact Or.inl h2
    · exact Or.inr ⟨i2, List.mem_cons_of_mem _ hi2, hkv⟩

theorem keysA_nodup_foldl_insertA (keyf : Nat → Nat) (name : String) :
    ∀ (l : List Nat) (r : List (Nat × String)), (keysA r).Nodup →
      (keysA (l.foldl (fun r i => insertA (keyf i) name r) r)).Nodup
  | [], _, h => h
  | _ :: t, r, h =>
    keysA_nodup_foldl_insertA keyf name t _ (keysA_insertA_nodup _ _ h)

theorem foldl_eraseA_sublist (keyf : Nat → Nat) :
    ∀ (l : List Nat) (r : List (Nat × String)),
      (l.foldl (fun r i => eraseA (keyf i) r) r).Sublist r
  | [], r => List.Sublist.refl r
  | i :: t, r => (foldl_eraseA_sublist keyf t _).trans (eraseA_sublist _ r)

theorem mem_foldl_eraseA (keyf : Nat → Nat) :
    ∀ (l : List Nat) (r : List (Nat × String)) {kv : Nat × String},
      (keysA r).Nodup →
      kv ∈ l.foldl (fun r i => eraseA (keyf i) r) r →
      kv ∈ r ∧ ∀ i ∈ l, kv.1 ≠ keyf i
  | [], _, _, _, h => ⟨h, by intro i hi; cases hi⟩
  | i :: t, r, kv, hnd, h => by
    have hnd2 : (keysA (eraseA (keyf i) r)).Nodup := keysA_eraseA_nodup _ hnd
    obtain ⟨h1, h2⟩ := mem_foldl_eraseA keyf t _ hnd2 h
    refine ⟨mem_of_mem_eraseA h1, ?_⟩
    intro i2 hi2
    rcases List.mem_cons.1 hi2 with he | ht
    · subst he
      intro hk
      apply not_mem_eraseA kv.2 hnd
      have hkv_eq : kv = (keyf i2, kv.2) := Prod.ext hk rfl
      rw [← hkv_eq]
      exact h1
    · exact h2 i2 ht

theorem add_ring_eq (c : Consistent) (name : String) :
    (add c name).ring = (List.range c.config.replicationFactor).foldl
      (fun r i => insertA (c.hashFunc (vnodeKey name i)) name r) c.ring := by
  unfold add
  rw [foldl_pair_split (fun i r => insertA (c.hashFunc (vnodeKey name i)) name r)
    (fun i s => s ++ [c.hashFunc (vnodeKey name i)])]

theorem add_sortedSet_eq (c : Consistent) (name : String) :
    (add c name).sortedSet = List.insertionSort (· ≤ ·)
      (c.sortedSet ++ (List.range c.config.replicationFactor).map
        (fun i => c.hashFunc (vnodeKey name i))) := by
  unfold add
  rw [foldl_pair_split (fun i r => insertA (c.hashFunc (vnodeKey name i)) name r)
    (fun i s => s ++ [c.hashFunc (vnodeKey name i)])]
  rw [foldl_append_map]

theorem add_members_eq (c : Consistent) (name : String) :
    (add c name).members
      = if name ∈ c.members then c.members else c.members ++ [name] := rfl

theorem mem_add_members {c : Consistent} {name x : String} :
    x ∈ (add c name).members ↔ x ∈ c.members ∨ x = name := by
  rw [add_members_eq]
  by_cases h : name ∈ c.members
  · rw [if_pos h]
    constructor
    · exact Or.inl
    · rintro (hx | hx)
      · exact hx
      · exact hx ▸ h
  · rw [if_neg h]
    simp

theorem add_members_nodup {c : Consistent} {name : String}
    (h : c.members.Nodup) : (add c name).members.Nodup := by
  rw [add_members_eq]
  by_cases h2 : name ∈ c.members
  · rw [if_pos h2]
    exact h
  · rw [if_neg h2]
    simp [List.nodup_append, h, h2]

/-! ### State invariant and reachability -/

/-- Invariant of every `Consistent` value produced through the public API:
ring keys are unique; every ring entry belongs to a current member and is one
of its virtual-node hashes; member names are unique; and whenever members
exist, the partition table covers all of `[0, P)` with member owners and
every load-table entry belongs to a member with a positive count. -/
structure Inv (c : Consistent) : Prop where
  ring_nodup : (keysA c.ring).Nodup
  ring_sound : ∀ kv ∈ c.ring, kv.2 ∈ c.members ∧
    ∃ i < c.config.replicationFactor, kv.1 = c.hashFunc (vnodeKey kv.2 i)
  mem_nodup : c.members.Nodup
  cover : c.members ≠ [] → ∀ pid < c.partitionCount,
    ∃ m, lookupA pid c.partitions = some m ∧ m ∈ c.members
  loads_sound : c.members ≠ [] → ∀ kv ∈ c.loads, kv.1 ∈ c.members ∧ 1 ≤ kv.2

/-- The ring-only part of the invariant (holds also in the transient states
between `add`/removal bookkeeping and the distribution pass). -/
structure RingInv (c : Consistent) : Prop where
  ring_nodup : (keysA c.ring).Nodup
  ring_sound : ∀ kv ∈ c.ring, kv.2 ∈ c.members ∧
    ∃ i < c.config.replicationFactor, kv.1 = c.hashFunc (vnodeKey kv.2 i)
  mem_nodup : c.members.Nodup

theorem Inv.toRingInv {c : Consistent} (h : Inv c) : RingInv c :=
  ⟨h.ring_nodup, h.ring_sound, h.mem_nodup⟩

/-- States reachable through the public constructors and mutators. -/
inductive Reachable : Consistent → Prop where
  | newC : ∀ (ms : Option (List String)) (cfg : Config) (hf : HashFunc)
      (c : Consistent), New ms cfg hf = .ok c → Reachable c
  | addC : ∀ (c : Consistent) (name : String) (c' : Consistent),
      Reachable c → Add c name = .ok c' → Reachable c'
  | removeC : ∀ (c : Consistent) (name : String) (c' : Consistent),
      Reachable c → Remove c name = .ok c' → Reachable c'

theorem ringInv_initC (cfg : Config) (hf : HashFunc) : RingInv (initC cfg hf) := by
  refine ⟨by simp [initC, keysA], ?_, by simp [initC]⟩
  intro kv hkv
  simp [initC] at hkv

theorem inv_initC (cfg : Config) (hf : HashFunc) : Inv (initC cfg hf) := by
  refine ⟨(ringInv_initC cfg hf).ring_nodup, (ringInv_initC cfg hf).ring_sound,
    (ringInv_initC cfg hf).mem_nodup, ?_, ?_⟩
  · intro h
    exact absurd rfl h
  · intro h
    exact absurd rfl h

theorem ringInv_add {c : Consistent} (h : RingInv c) (name : String) :
    RingInv (add c name) := by
  refine ⟨?_, ?_, add_members_nodup h.mem_nodup⟩
  · rw [add_ring_eq]
    exact keysA_nodup_foldl_insertA _ _ _ _ h.ring_nodup
  · intro kv hkv
    rw [add_ring_eq] at hkv
    rcases mem_foldl_insertA _ _ _ _ hkv with h1 | ⟨i, hi, hkv2⟩
    · obtain ⟨hm, i, hiR, hk⟩ := h.ring_sound kv h1
      exact ⟨mem_add_members.2 (Or.inl hm), i, hiR, hk⟩
    · subst hkv2
      exact ⟨mem_add_members.2 (Or.inr rfl), i, List.mem_range.1 hi, rfl⟩

theorem ringInv_foldl_add {c : Consistent} (h : RingInv c) :
    ∀ (ms : List String), RingInv (ms.foldl add c)
  | [] => h
  | name :: t => by
    rw [List.foldl_cons]
    exact ringInv_foldl_add (ringInv_add h name) t

/-- A full distribution pass on a state with sound ring restores the whole
invariant. -/
theorem inv_of_distribute {c c' : Consistent} (h : RingInv c)
    (hd : distributePartitions c = .ok c') : Inv c' := by
  obtain ⟨hm, hr, hcf, hpc, _, hhf, _, _, _, _⟩ := distributePartitions_ok_fields hd
  obtain ⟨hcov, hload, _, _⟩ :=
    distributePartitions_ok_main (fun kv hkv => (h.ring_sound kv hkv).1) hd
  refine ⟨?_, ?_, ?_, ?_, ?_⟩
  · rw [hr]
    exact h.ring_nodup
  · intro kv hkv
    rw [hr] at hkv
    obtain ⟨hmem, i, hiR, hk⟩ := h.ring_sound kv hkv
    refine ⟨hm ▸ hmem, i, ?_, ?_⟩
    · rw [hcf]
      exact hiR
    · rw [hhf]
      exact hk
  · rw [hm]
    exact h.mem_nodup
  · intro _ pid hpid
    exact hcov pid hpid
  · intro _ kv hkv
    exact ⟨(hload kv hkv).1, (hload kv hkv).2.1⟩

theorem inv_new {ms : Option (List String)} {cfg : Config} {hf : HashFunc}
    {c : Consistent} (h : New ms cfg hf = .ok c) : Inv c := by
  unfold New at h
  cases ms with
  | none =>
    cases h
    exact inv_initC cfg hf
  | some l =>
    have hri : RingInv (l.foldl add (initC cfg hf)) :=
      ringInv_foldl_add (ringInv_initC cfg hf) l
    exact inv_of_distribute hri h

theorem inv_Add {c c' : Consistent} {name : String} (h : Inv c)
    (hA : Add c name = .ok c') : Inv c' := by
  unfold Add at hA
  by_cases hm : name ∈ c.members
  · rw [if_pos hm] at hA
    cases hA
    exact h
  · rw [if_neg hm] at hA
    exact inv_of_distribute (ringInv_add h.toRingInv name) hA

/-- The transient state built inside `Remove` before the final branch. -/
def removeCore (c : Consistent) (name : String) : Consistent :=
  let rs := (List.range c.config.replicationFactor).foldl
    (fun (acc : List (Nat × String) × List Nat) i =>
      (eraseA (c.hashFunc (vnodeKey name i)) acc.1,
        delSlice (c.hashFunc (vnodeKey name i)) acc.2))
    (c.ring, c.sortedSet)
  { c with ring := rs.1, sortedSet := rs.2, members := c.members.erase name }

theorem Remove_eq_of_mem {c : Consistent} {name : String} (h : name ∈ c.members) :
    Remove c name = (if (removeCore c name).members.length = 0 then
      .ok { removeCore c name with partitions := [] }
    else distributePartitions (removeCore c name)) := by
  unfold Remove removeCore
  rw [if_pos h]

theorem removeCore_ring_eq (c : Consistent) (name : String) :
    (removeCore c name).ring = (List.range c.config.replicationFactor).foldl
      (fun r i => eraseA (c.hashFunc (vnodeKey name i)) r) c.ring := by
  unfold removeCore
  rw [foldl_pair_split (fun i r => eraseA (c.hashFunc (vnodeKey name i)) r)
    (fun i s => delSlice (c.hashFunc (vnodeKey name i)) s)]

theorem ringInv_removeCore {c : Consistent} (h : RingInv c) (name : String) :
    RingInv (removeCore c name) := by
  refine ⟨?_, ?_, h.mem_nodup.erase name⟩
  · rw [removeCore_ring_eq]
    exact ((foldl_eraseA_sublist _ _ _).map Prod.fst).nodup h.ring_nodup
  · intro kv hkv
    rw [removeCore_ring_eq] at hkv
    obtain ⟨h1, h2⟩ := mem_foldl_eraseA _ _ _ h.ring_nodup hkv
    obtain ⟨hm, i, hiR, hk⟩ := h.ring_sound kv h1
    have hne : kv.2 ≠ name := by
      intro he
      exact h2 i (List.mem_range.2 hiR) (he ▸ hk)
    refine ⟨?_, i, hiR, hk⟩
    exact (List.Nodup.mem_erase_iff h.mem_nodup).2 ⟨hne, hm⟩

theorem inv_Remove {c c' : Consistent} {name : String} (h : Inv c)
    (hR : Remove c name = .ok c') : Inv c' := by
  by_cases hm : name ∈ c.members
  · rw [Remove_eq_of_mem hm] at hR
    have hri : RingInv (removeCore c name) := ringInv_removeCore h.toRingInv name
    by_cases hz : (removeCore c name).members.length = 0
    · rw [if_pos hz] at hR
      cases hR
      have hemp : (removeCore c name).members = [] := List.length_eq_zero.1 hz
      refine ⟨hri.ring_nodup, ?_, hri.mem_nodup, ?_, ?_⟩
      · intro kv hkv
        exact hri.ring_sound kv hkv
      · intro hne
        exact absurd hemp hne
      · intro hne
        exact absurd hemp hne
    · rw [if_neg hz] at hR
      exact inv_of_distribute hri hR
  · unfold Remove at hR
    rw [if_neg hm] at hR
    cases hR
    exact h

/-- Every reachable state satisfies the invariant. -/
theorem inv_reachable : ∀ {c : Consistent}, Reachable c → Inv c := by
  intro c h
  induction h with
  | newC ms cfg hf c hok => exact inv_new hok
  | addC c name c' _ hok ih => exact inv_Add ih hok
  | removeC c name c' _ hok ih => exact inv_Remove ih hok

/-! ### Probe walk characterization -/

/-- Owner of the virtual node at position `pos` of `sortedSet` (resolving
through the ring map). -/
def ownerAt (ring : List (Nat × String)) (ss : List Nat) (pos : Nat) : Option String :=
  (ss.get? pos).bind (fun h => lookupA h ring)

/-- The virtual node at position `pos` resolves to an owner whose load,
after one more partition, still fits under the average. -/
def probeFits (ring : List (Nat × String)) (ss : List Nat) (avg : ℤ)
    (loads : List (String × Nat)) (pos : Nat) : Prop :=
  ∃ m, ownerAt ring ss pos = some m ∧ ((lookupA m loads).getD 0 : ℤ) + 1 ≤ avg

theorem get?_eq_some_of_lt {ss : List Nat} {idx : Nat} (h : idx < ss.length) :
    ∃ v, ss.get? idx = some v := by
  rw [List.get?_eq_get h]
  exact ⟨ss.get ⟨idx, h⟩, rfl⟩

/-- The probe fails with `noRoom` exactly when none of the `steps` positions
visited (in circular order from `idx`) fits. -/
theorem probe_error_iff {ring : List (Nat × String)} {ss : List Nat} {avg : ℤ}
    {partID : Nat}
    (hres : ∀ h ∈ ss, (lookupA h ring).isSome = true) :
    ∀ (steps idx : Nat) (parts : List (Nat × String)) (loads : List (String × Nat)),
      idx < ss.length →
      (distributeWithLoadAux ring ss avg partID steps idx parts loads
          = .error .noRoom ↔
        ∀ j < steps, ¬ probeFits ring ss avg loads ((idx + j) % ss.length))
  | 0, idx, parts, loads, hidx => by
    constructor
    · intro _ j hj
      omega
    · intro _
      rfl
  | steps + 1, idx, parts, loads, hidx => by
    obtain ⟨hv, hget⟩ := get?_eq_some_of_lt hidx
    have hlkS : (lookupA hv ring).isSome = true :=
      hres hv (List.get?_mem hget)
    obtain ⟨m, hlk⟩ := Option.isSome_iff_exists.1 hlkS
    have hidx0 : (idx + 0) % ss.length = idx := by
      rw [Nat.add_zero, Nat.mod_eq_of_lt hidx]
    have howner : ownerAt ring ss idx = some m := by
      unfold ownerAt
      rw [hget]
      exact hlk
    rw [distributeWithLoadAux, hget]
    dsimp only
    rw [hlk]
    dsimp only
    by_cases hfit : (((lookupA m loads).getD 0 : ℕ) : ℤ) + 1 ≤ avg
    · rw [if_pos hfit]
      constructor
      · intro h
        cases h
      · intro h
        refine absurd (show probeFits ring ss avg loads ((idx + 0) % ss.length) by
          rw [hidx0]; exact ⟨m, howner, hfit⟩) (h 0 (Nat.succ_pos steps))
    · rw [if_neg hfit]
      have hn : 0 < ss.length := Nat.lt_of_le_of_lt (Nat.zero_le idx) hidx
      have hwrap : (if ss.length ≤ idx + 1 then 0 else idx + 1)
          = (idx + 1) % ss.length := wrap_eq_mod hidx
      rw [hwrap]
      have hidx2 : (idx + 1) % ss.length < ss.length := Nat.mod_lt _ hn
      rw [probe_error_iff hres steps ((idx + 1) % ss.length) parts loads hidx2]
      constructor
      · intro h j hj
        cases j with
        | zero =>
          rw [hidx0]
          rintro ⟨m2, hm2, hfit2⟩
          rw [howner] at hm2
          cases hm2
          exact hfit hfit2
        | succ j2 =>
          have := h j2 (by omega)
          rw [Nat.mod_add_mod, show idx + 1 + j2 = idx + (j2 + 1) by omega] at this
          exact this
      · intro h j hj
        have := h (j + 1) (by omega)
        rw [Nat.mod_add_mod, show idx + 1 + j = idx + (j + 1) by omega]
        exact this

/-- The probe assigns the partition to the owner of the first fitting
position among those it visits. -/
theorem probe_first_fit {ring : List (Nat × String)} {ss : List Nat} {avg : ℤ}
    {partID : Nat}
    (hres : ∀ h ∈ ss, (lookupA h ring).isSome = true) :
    ∀ (steps idx : Nat) (parts : List (Nat × String)) (loads : List (String × Nat))
      (j0 : Nat), idx < ss.length → j0 < steps →
      probeFits ring ss avg loads ((idx + j0) % ss.length) →
      (∀ j < j0, ¬ probeFits ring ss avg loads ((idx + j) % ss.length)) →
      ∃ m, ownerAt ring ss ((idx + j0) % ss.length) = some m ∧
        distributeWithLoadAux ring ss avg partID steps idx parts loads
          = .ok (insertA partID m parts,
              insertA m ((lookupA m loads).getD 0 + 1) loads)
  | 0, idx, parts, loads, j0, hidx, hj0, _, _ => by omega
  | steps + 1, idx, parts, loads, j0, hidx, hj0, hfit0, hmin => by
    obtain ⟨hv, hget⟩ := get?_eq_some_of_lt hidx
    have hlkS : (lookupA hv ring).isSome = true :=
      hres hv (List.get?_mem hget)
    obtain ⟨m, hlk⟩ := Option.isSome_iff_exists.1 hlkS
    have hidx0 : (idx + 0) % ss.length = idx := by
      rw [Nat.add_zero, Nat.mod_eq_of_lt hidx]
    have howner : ownerAt ring ss idx = some m := by
      unfold ownerAt
      rw [hget]
      exact hlk
    rw [distributeWithLoadAux, hget]
    dsimp only
    rw [hlk]
    dsimp only
    cases j0 with
    | zero =>
      rw [hidx0] at hfit0
      obtain ⟨m2, hm2, hfit2⟩ := hfit0
      rw [howner] at hm2
      cases hm2
      rw [if_pos hfit2]
      refine ⟨m, ?_, rfl⟩
      rw [hidx0]
      exact howner
    | succ j1 =>
      have hnofit : ¬ (((lookupA m loads).getD 0 : ℕ) : ℤ) + 1 ≤ avg := by
        intro hf
        refine hmin 0 (Nat.succ_pos j1) ?_
        rw [hidx0]
        exact ⟨m, howner, hf⟩
      rw [if_neg hnofit]
      have hn : 0 < ss.length := Nat.lt_of_le_of_lt (Nat.zero_le idx) hidx
      have hwrap : (if ss.length ≤ idx + 1 then 0 else idx + 1)
          = (idx + 1) % ss.length := wrap_eq_mod hidx
      rw [hwrap]
      have hidx2 : (idx + 1) % ss.length < ss.length := Nat.mod_lt _ hn
      have hshift : ((idx + 1) % ss.length + j1) % ss.length
          = (idx + (j1 + 1)) % ss.length := by
        rw [Nat.mod_add_mod, show idx + 1 + j1 = idx + (j1 + 1) by omega]
      have hmin2 : ∀ j < j1, ¬ probeFits ring ss avg loads
          (((idx + 1) % ss.length + j) % ss.length) := by
        intro j hj
        rw [Nat.mod_add_mod, show idx + 1 + j = idx + (j + 1) by omega]
        exact hmin (j + 1) (by omega)
      obtain ⟨m2, hm2, heq⟩ := probe_first_fit hres steps ((idx + 1) % ss.length)
        parts loads j1 hidx2 (by omega) (by rw [hshift]; exact hfit0) hmin2
      refine ⟨m2, ?_, heq⟩
      rw [← hshift]
      exact hm2

/-! ### Closest-N lemmas -/

/-- The entries appended by `collectLoop`, as a standalone list. -/
def walkC (keys : List Nat) (kMems : List (Nat × String)) : Nat → Nat → List String
  | 0, _ => []
  | fuel + 1, idx =>
    ((lookupA (keys.getD (if keys.length ≤ idx + 1 then 0 else idx + 1) 0)
        kMems).getD "")
      :: walkC keys kMems fuel (if keys.length ≤ idx + 1 then 0 else idx + 1)

theorem collectLoop_eq_walk (keys : List Nat) (kMems : List (Nat × String)) :
    ∀ (fuel idx : Nat) (res : List String),
      collectLoop keys kMems fuel idx res = res ++ walkC keys kMems fuel idx
  | 0, idx, res => by simp [collectLoop, walkC]
  | fuel + 1, idx, res => by
    rw [collectLoop, walkC, collectLoop_eq_walk keys kMems fuel]
    simp

theorem walkC_formula (keys : List Nat) (kMems : List (Nat × String))
    (hn : 0 < keys.length) :
    ∀ (fuel idx : Nat), idx < keys.length →
      walkC keys kMems fuel idx = (List.range fuel).map (fun j =>
        (lookupA (keys.getD ((idx + j + 1) % keys.length) 0) kMems).getD "")
  | 0, idx, _ => by simp [walkC]
  | fuel + 1, idx, hidx => by
    have hwrap : (if keys.length ≤ idx + 1 then 0 else idx + 1)
        = (idx + 1) % keys.length := wrap_eq_mod hidx
    have hidx2 : (idx + 1) % keys.length < keys.length := Nat.mod_lt _ hn
    rw [walkC, hwrap, walkC_formula keys kMems hn fuel _ hidx2]
    rw [List.range_succ_eq_map]
    rw [List.map_cons, List.map_map]
    congr 1
    refine List.map_congr_left ?_
    intro j _
    dsimp only [Function.comp]
    have h1 : (idx + 1) % keys.length + j + 1
        = (idx + 1) % keys.length + (j + 1) := by omega
    rw [h1, Nat.mod_add_mod]
    have h2 : idx + 1 + (j + 1) = idx + (j + 1) + 1 := by omega
    rw [h2]

theorem lookupA_map_self {f : String → Nat} :
    ∀ {ms : List String},
      (∀ a ∈ ms, ∀ b ∈ ms, f a = f b → a = b) →
      ∀ {x : String}, x ∈ ms →
        lookupA (f x) (ms.map fun nm => (f nm, nm)) = some x
  | [], _, x, hx => by cases hx
  | a :: t, hinj, x, hx => by
    rw [List.map_cons, lookupA]
    by_cases he : f a = f x
    · rw [if_pos he]
      have : a = x := hinj a (List.mem_cons_self a t) x hx he
      rw [this]
    · rw [if_neg he]
      rcases List.mem_cons.1 hx with h1 | h1
      · exact absurd (h1 ▸ rfl) he
      · exact lookupA_map_self
          (fun p hp q hq => hinj p (List.mem_cons_of_mem a hp)
            q (List.mem_cons_of_mem a hq)) h1

theorem lookupA_map_hash {f : String → Nat} :
    ∀ {ms : List String} {k : Nat} {m : String},
      lookupA k (ms.map fun nm => (f nm, nm)) = some m → f m = k ∧ m ∈ ms
  | [], _, _, h => by simp [lookupA] at h
  | a :: t, k, m, h => by
    rw [List.map_cons, lookupA] at h
    by_cases he : f a = k
    · rw [if_pos he] at h
      cases h
      exact ⟨he, List.mem_cons_self a t⟩
    · rw [if_neg he] at h
      obtain ⟨h1, h2⟩ := lookupA_map_hash h
      exact ⟨h1, List.mem_cons_of_mem a h2⟩

theorem getD_mem_of_lt {l : List Nat} {p : Nat} (h : p < l.length) :
    l.getD p 0 ∈ l := by
  rw [List.getD_eq_getElem l 0 h]
  exact List.getElem_mem h

theorem getD_nodup_inj {l : List Nat} (hnd : l.Nodup) {p1 p2 : Nat}
    (h1 : p1 < l.length) (h2 : p2 < l.length)
    (he : l.getD p1 0 = l.getD p2 0) : p1 = p2 := by
  rw [List.getD_eq_getElem l 0 h1, List.getD_eq_getElem l 0 h2] at he
  exact List.Nodup.getElem_inj_iff hnd |>.1 he

theorem closestKeys_perm (c : Consistent) :
    (closestKeys c).Perm (c.members.map fun nm => c.hashFunc (strBytes nm)) :=
  List.perm_insertionSort _ _

theorem closestKeys_length (c : Consistent) :
    (closestKeys c).length = c.members.length := by
  rw [(closestKeys_perm c).length_eq, List.length_map]

theorem closestKeys_nodup {c : Consistent} (hnd : c.members.Nodup)
    (hinj : ∀ a ∈ c.members, ∀ b ∈ c.members,
      c.hashFunc (strBytes a) = c.hashFunc (strBytes b) → a = b) :
    (closestKeys c).Nodup :=
  ((closestKeys_perm c).nodup_iff).2 (hnd.map_on hinj)

/-- Every position of `closestKeys` resolves, through `closestKMems`, to a
member whose name hash is the key at that position. -/
theorem closest_entry_char {c : Consistent}
    (hinj : ∀ a ∈ c.members, ∀ b ∈ c.members,
      c.hashFunc (strBytes a) = c.hashFunc (strBytes b) → a = b)
    {p : Nat} (hp : p < (closestKeys c).length) :
    ∃ x ∈ c.members, (closestKeys c).getD p 0 = c.hashFunc (strBytes x) ∧
      (lookupA ((closestKeys c).getD p 0) (closestKMems c)).getD "" = x := by
  have hmem : (closestKeys c).getD p 0 ∈ closestKeys c := getD_mem_of_lt hp
  have hmem2 : (closestKeys c).getD p 0
      ∈ c.members.map fun nm => c.hashFunc (strBytes nm) :=
    (closestKeys_perm c).mem_iff.1 hmem
  obtain ⟨x, hx, hkey⟩ := List.mem_map.1 hmem2
  refine ⟨x, hx, hkey.symm, ?_⟩
  rw [hkey.symm]
  unfold closestKMems
  rw [lookupA_map_self hinj hx]
  rfl

/-- Entry collected by the closest-N walk at a position of `closestKeys`. -/
def closestEntry (c : Consistent) (p : Nat) : String :=
  (lookupA ((closestKeys c).getD p 0) (closestKMems c)).getD ""

theorem closestEntry_def (c : Consistent) (p : Nat) :
    closestEntry c p
      = (lookupA ((closestKeys c).getD p 0) (closestKMems c)).getD "" := rfl

/-- Closed form of a successful `getClosestN`: the result is the walk of
`count` entries starting at the owner's position in the sorted name-hash
sequence. -/
theorem getClosestN_ok_formula (c : Consistent) (partID count : Nat)
    {ow : String} (how : getPartitionOwner c partID = some ow)
    (howm : ow ∈ c.members)
    (h1 : 1 ≤ count) (h2 : count ≤ c.members.length) :
    ∃ i0 < (closestKeys c).length,
      (closestKeys c).getD i0 0 = c.hashFunc (strBytes ow) ∧
      getClosestN c partID count = .ok ((List.range count).map fun j =>
        closestEntry c ((i0 + j) % (closestKeys c).length)) := by
  have hne : c.members ≠ [] := by
    intro h
    rw [h] at h2
    simp at h2
    omega
  have hnotlt : ¬ (c.members.length < count) := by omega
  have hok : (if ow ∈ c.members then c.hashFunc (strBytes ow) else 0)
      = c.hashFunc (strBytes ow) := if_pos howm
  have hmemkey : c.hashFunc (strBytes ow) ∈ closestKeys c :=
    (closestKeys_perm c).mem_iff.2 (List.mem_map_of_mem _ howm)
  have hfindS : ((closestKeys c).findIdx?
      (fun k => k = c.hashFunc (strBytes ow)) 0).isSome = true :=
    findIdxQ_isSome_of_mem _ _ 0 ⟨_, hmemkey, by simp⟩
  obtain ⟨i0, hfind⟩ := Option.isSome_iff_exists.1 hfindS
  obtain ⟨j0, hj0eq, hj0lt, hpj0, _⟩ := findIdxQ_some _ _ 0 i0 hfind
  have hij : i0 = j0 := by omega
  subst hij
  have hkeyi0 : (closestKeys c).getD i0 0 = c.hashFunc (strBytes ow) := by
    have := of_decide_eq_true hpj0
    simpa using this
  have hn : 0 < (closestKeys c).length := by
    rw [closestKeys_length]
    omega
  refine ⟨i0, hj0lt, hkeyi0, ?_⟩
  unfold getClosestN
  rw [if_neg hnotlt, if_neg hne, how]
  dsimp only
  simp only [hok]
  rw [hfind]
  dsimp only
  rw [collectLoop_eq_walk, walkC_formula _ _ hn _ _ hj0lt]
  simp only [← closestEntry_def]
  congr 1
  obtain ⟨k, rfl⟩ : ∃ k, count = k + 1 := ⟨count - 1, by omega⟩
  simp only [Nat.add_sub_cancel]
  rw [List.range_succ_eq_map, List.map_cons, List.map_map]
  rw [List.singleton_append]
  congr 1
  rw [Nat.add_zero, Nat.mod_eq_of_lt hj0lt]

/-- Properties of a successful `getClosestN`: exactly `count` results, all
distinct, the first being the partition owner. -/
theorem getClosestN_props (c : Consistent) (partID count : Nat)
    (hnd : c.members.Nodup)
    (hinj : ∀ a ∈ c.members, ∀ b ∈ c.members,
      c.hashFunc (strBytes a) = c.hashFunc (strBytes b) → a = b)
    {ow : String} (how : getPartitionOwner c partID = some ow)
    (howm : ow ∈ c.members)
    (h1 : 1 ≤ count) (h2 : count ≤ c.members.length) :
    ∃ res, getClosestN c partID count = .ok res ∧ res.length = count ∧
      res.Nodup ∧ res.head? = some ow := by
  obtain ⟨i0, hi0, hkey, heq⟩ := getClosestN_ok_formula c partID count how howm h1 h2
  have hnm : (closestKeys c).length = c.members.length := closestKeys_length c
  have hn : 0 < (closestKeys c).length := by omega
  have hkeysnd : (closestKeys c).Nodup := closestKeys_nodup hnd hinj
  refine ⟨_, heq, ?_, ?_, ?_⟩
  · rw [List.length_map, List.length_range]
  · refine List.Nodup.map_on ?_ (List.nodup_range count)
    intro j1 hj1 j2 hj2 hE
    rw [List.mem_range] at hj1 hj2
    have hp1 : (i0 + j1) % (closestKeys c).length < (closestKeys c).length :=
      Nat.mod_lt _ hn
    have hp2 : (i0 + j2) % (closestKeys c).length < (closestKeys c).length :=
      Nat.mod_lt _ hn
    obtain ⟨x1, hx1, hk1, he1⟩ := closest_entry_char hinj hp1
    obtain ⟨x2, hx2, hk2, he2⟩ := closest_entry_char hinj hp2
    rw [closestEntry_def, he1, closestEntry_def, he2] at hE
    subst hE
    have hkk : (closestKeys c).getD ((i0 + j1) % (closestKeys c).length) 0
        = (closestKeys c).getD ((i0 + j2) % (closestKeys c).length) 0 := by
      rw [hk1, hk2]
    have hpp := getD_nodup_inj hkeysnd hp1 hp2 hkk
    exact mod_add_inj (by omega) (by omega) hpp
  · rw [List.head?_map]
    obtain ⟨k, rfl⟩ : ∃ k, count = k + 1 := ⟨count - 1, by omega⟩
    rw [List.range_succ_eq_map]
    dsimp only [List.head?]
    simp only [Option.map_some']
    obtain ⟨x, hx, hk1, he1⟩ :=
      closest_entry_char hinj (Nat.mod_lt (i0 + 0) hn)
    rw [show (i0 + 0) % (closestKeys c).length = i0 by
      rw [Nat.add_zero, Nat.mod_eq_of_lt hi0]] at hk1 he1
    rw [closestEntry_def]
    rw [show (i0 + 0) % (closestKeys c).length = i0 by
      rw [Nat.add_zero, Nat.mod_eq_of_lt hi0]]
    rw [he1]
    have hxo : x = ow := by
      refine hinj x hx ow howm ?_
      rw [← hk1, hkey]
    rw [hxo]

/-! ### Spec-side bound and initial-fold lemmas -/

/-- The spec's claimed per-member bound: `ceil(ceil(P / |M|) * loadFactor)`
with exact rational division inside the inner ceiling. -/
def specBound (c : Consistent) : ℤ :=
  ⌈((⌈(c.partitionCount : ℚ) / (c.members.length : ℚ)⌉ : ℤ) : ℚ) * c.config.load⌉

theorem specBound_zero {c : Consistent} (h : c.partitionCount = 0) :
    specBound c = 0 := by
  unfold specBound
  rw [h]
  simp

theorem averageLoad_le_specBound {c : Consistent} (hne : c.members ≠ [])
    (havg : 1 ≤ averageLoad c) : averageLoad c ≤ specBound c := by
  have hn : 0 < c.members.length := List.length_pos.2 hne
  have hspec := averageLoad_eq_spec c (by omega)
  have hlfpos : 0 < c.config.load := by
    by_contra hlf
    push_neg at hlf
    have h1 : ((c.partitionCount / c.members.length : Nat) : ℚ) * c.config.load
        ≤ ((c.partitionCount / c.members.length : Nat) : ℚ) * 0 :=
      mul_le_mul_of_nonneg_left hlf (by positivity)
    rw [mul_zero] at h1
    have h2 : averageLoad c ≤ 0 := by
      rw [hspec]
      exact Int.ceil_le.2 (by simpa using h1)
    omega
  unfold specBound
  rw [hspec]
  refine Int.ceil_le_ceil ?_
  refine mul_le_mul_of_nonneg_right ?_ (le_of_lt hlfpos)
  have h1 : ((c.partitionCount / c.members.length : Nat) : ℚ)
      ≤ (c.partitionCount : ℚ) / (c.members.length : ℚ) := by
    rw [le_div_iff (by exact_mod_cast hn)]
    exact_mod_cast Nat.div_mul_le_self c.partitionCount c.members.length
  exact h1.trans (Int.le_ceil _)

theorem mem_keysA {α β : Type} {l : List (α × β)} {k : α} :
    k ∈ keysA l ↔ ∃ kv ∈ l, kv.1 = k := by
  unfold keysA
  simp [List.mem_map]

/-- Structural facts about the member fold performed by `New`: the sorted
set accumulates every member's virtual-node hashes with multiplicity (no
deduplication of the input list), while the member map keys stay unique. -/
theorem foldl_add_props :
    ∀ (ms : List String) (c : Consistent),
      ((ms.foldl add c).sortedSet).Perm
        (c.sortedSet ++ ms.flatMap (fun name =>
          (List.range c.config.replicationFactor).map
            (fun i => c.hashFunc (vnodeKey name i)))) ∧
      (∀ x, x ∈ (ms.foldl add c).members ↔ x ∈ c.members ∨ x ∈ ms) ∧
      (c.members.Nodup → (ms.foldl add c).members.Nodup)
  | [], c => by
    refine ⟨by simp, fun x => by simp, fun h => h⟩
  | name :: t, c => by
    rw [List.foldl_cons]
    obtain ⟨hperm, hmem, hnd⟩ := foldl_add_props t (add c name)
    have hcfg : (add c name).config = c.config := rfl
    have hhf : (add c name).hashFunc = c.hashFunc := rfl
    simp only [hcfg, hhf] at hperm
    refine ⟨?_, ?_, ?_⟩
    · refine hperm.trans ?_
      have h1 : (add c name).sortedSet.Perm
          (c.sortedSet ++ (List.range c.config.replicationFactor).map
            (fun i => c.hashFunc (vnodeKey name i))) := by
        rw [add_sortedSet_eq]
        exact List.perm_insertionSort _ _
      have h2 := h1.append_right (t.flatMap (fun name2 =>
        (List.range c.config.replicationFactor).map
          (fun i => c.hashFunc (vnodeKey name2 i))))
      refine h2.trans ?_
      rw [List.append_assoc, List.flatMap_cons]
    · intro x
      rw [hmem x, mem_add_members]
      constructor
      · rintro ((h | h) | h)
        · exact Or.inl h
        · exact Or.inr (List.mem_cons.2 (Or.inl h))
        · exact Or.inr (List.mem_cons_of_mem _ h)
      · rintro (h | h)
        · exact Or.inl (Or.inl h)
        · rcases List.mem_cons.1 h with h | h
          · exact Or.inl (Or.inr h)
          · exact Or.inr h
    · intro h
      exact hnd (add_members_nodup h)

/-! ### Concrete fixtures for witnesses and counterexamples -/

/-- A simple deterministic polynomial hash over the byte values, standing in
for the pluggable 64-bit hash function. -/
def testHash : HashFunc := fun bs => bs.foldl (fun a b => (a * 131 + b) % (2 ^ 64)) 7

/-- The rational 5/4 (= 1.25, the default load factor), in reduced form. -/
def lf54 : ℚ := ⟨5, 4, by decide, by decide⟩

/-- The rational 1. -/
def lf1 : ℚ := ⟨1, 1, by decide, by decide⟩

/-- The rational 2. -/
def lf2 : ℚ := ⟨2, 1, by decide, by decide⟩

/-- The configuration of the spec's concrete scenario:
`{PartitionCount: 23, ReplicationFactor: 20, Load: 1.25}`. -/
def cfg23 : Config := ⟨23, 20, lf54⟩

/-- The state built by `New` for the spec's scenario, before distribution. -/
def preC23 : Consistent := ["node1", "node2", "node3"].foldl add (initC cfg23 testHash)

/-- The state built by `New({"node1","node2","node3"}, cfg23)`. -/
def newC23 : Consistent :=
  match New (some ["node1", "node2", "node3"]) cfg23 testHash with
  | .ok c => c
  | .error _ => initC cfg23 testHash

/-- A single member with one virtual node (`PartitionCount 1`,
`ReplicationFactor 1`, `Load 1`): the probe's counter bound fires before the
sole virtual node is ever examined. -/
def c2pre : Consistent := add (initC ⟨1, 1, lf1⟩ testHash) "a"

/-- A single member with two virtual nodes (`PartitionCount 1`,
`ReplicationFactor 2`, `Load 1`). -/
def c2w : Consistent := add (initC ⟨1, 2, lf1⟩ testHash) "a"

/-- A crafted hash used to steer every partition onto member `"a"`:
virtual-node keys of `"a"`/`"b"` get fixed positions, the member names
themselves hash apart, and every other input (in particular the partition
keys) hashes to 50, below all virtual nodes. -/
def hf2 : HashFunc := fun bs =>
  if bs = strBytes "a0" then 100 else if bs = strBytes "a1" then 110
  else if bs = strBytes "b0" then 200 else if bs = strBytes "b1" then 210
  else if bs = strBytes "a" then 20 else if bs = strBytes "b" then 30
  else 50

/-- `New({"a"}, {PartitionCount 2, ReplicationFactor 2, Load 2})` with the
crafted hash. -/
def c4w0 : Consistent :=
  match New (some ["a"]) ⟨2, 2, lf2⟩ hf2 with
  | .ok c => c
  | .error _ => initC ⟨2, 2, lf2⟩ hf2

/-- The previous state after `Add("b")`: both partitions stay on `"a"`, so
`"b"` carries zero load and has no key in the load table. -/
def c4w : Consistent :=
  match Add c4w0 "b" with
  | .ok c => c
  | .error _ => initC ⟨2, 2, lf2⟩ hf2

/-- `New({"a"}, {PartitionCount 1, ReplicationFactor 2, Load 2})`: a valid
one-member state with a non-empty load table. -/
def c5pre : Consistent :=
  match New (some ["a"]) ⟨1, 2, lf2⟩ testHash with
  | .ok c => c
  | .error _ => initC ⟨1, 2, lf2⟩ testHash

/-- `New` called with the duplicated member list `{"a","a"}`
(`PartitionCount 2`, `ReplicationFactor 1`, `Load 1`). -/
def c10w : Consistent :=
  match New (some ["a", "a"]) ⟨2, 1, lf1⟩ testHash with
  | .ok c => c
  | .error _ => initC ⟨2, 1, lf1⟩ testHash

/-! ### Claim theorems -/

/-- Claim C1, counterexample: in the state built by `New` for the spec's
concrete scenario (PartitionCount 23, Load 1.25, three members),
`AverageLoad()` evaluates to 9, not the claimed
`ceil(ceil(23/3)*1.25) = 10`, because the code divides the partition count
by the member count with integer (floor) division before applying the load
factor. -/
theorem C1_counterexample :
    (New (some ["node1", "node2", "node3"]) cfg23 testHash).map AverageLoad
      = .ok 9 ∧ (9 : ℤ) ≠ 10 :=
  ⟨by decide, by decide⟩

/-- Claim C1, amended: for every state with at least one member,
`AverageLoad()` equals `ceil(floor(P / member_count) * loadFactor)` (the
inner division is Go integer division), it equals `0` when there are no
members, and in the spec's concrete scenario (PartitionCount 23, Load 1.25,
three members) it equals `ceil(7 * 1.25) = 9`. -/
theorem C1_thm :
    (∀ c : Consistent, c.members.length ≠ 0 →
      AverageLoad c
        = ⌈((c.partitionCount / c.members.length : Nat) : ℚ) * c.config.load⌉) ∧
    (∀ c : Consistent, c.members = [] → AverageLoad c = 0) ∧
    (New (some ["node1", "node2", "node3"]) cfg23 testHash).map AverageLoad
      = .ok 9 :=
  ⟨fun c h => averageLoad_eq_spec c h, fun c h => averageLoad_of_empty c h,
    by decide⟩

/-- Claim C1, witness: the amended formula applied to the concrete scenario
state. -/
theorem C1_witness :
    AverageLoad newC23
      = ⌈((newC23.partitionCount / newC23.members.length : Nat) : ℚ)
          * newC23.config.load⌉ :=
  C1_thm.1 newC23 (by decide)

/-- Claim C2, counterexample: with one member and one virtual node
(`PartitionCount 1`, `ReplicationFactor 1`, `Load 1`), the sole virtual node
resolves to an owner with room (`0 + 1 ≤ AverageLoad() = 1`), yet the
distribution pass panics with the infeasible-configuration error: because
the counter is incremented and checked against `len(sortedSet)` before any
node is examined, the probe gives up after visiting only
`len(sortedSet) - 1` nodes — here zero of them. -/
theorem C2_counterexample :
    distributePartitions c2pre = .error .noRoom ∧
    c2pre.sortedSet.length = 1 ∧
    ownerAt c2pre.ring c2pre.sortedSet 0 = some "a" ∧
    ((lookupA "a" ([] : List (String × Nat))).getD 0 : ℤ) + 1
      ≤ averageLoad c2pre :=
  ⟨by rfl, by rfl, by rfl, by decide⟩

/-- Claim C2, amended: over a non-empty `sortedSet`, the bounded placement
probe assigns the partition to the first owner with room among the first
`len(sortedSet) - 1` virtual nodes visited in circular order from the
searched index (incrementing that owner's load), and the fatal
infeasible-configuration error is raised exactly when none of those first
`len(sortedSet) - 1` visited virtual nodes has room — the last virtual node
of the circuit is never examined. -/
theorem C2_thm :
    ∀ (c : Consistent) (partID idx : Nat) (parts : List (Nat × String))
      (loads : List (String × Nat)),
      idx < c.sortedSet.length →
      (∀ h ∈ c.sortedSet, (lookupA h c.ring).isSome = true) →
      ((distributeWithLoad c partID idx parts loads = .error .noRoom ↔
        ∀ j < c.sortedSet.length - 1,
          ¬ probeFits c.ring c.sortedSet (averageLoad c) loads
            ((idx + j) % c.sortedSet.length)) ∧
      (∀ j0, j0 < c.sortedSet.length - 1 →
        probeFits c.ring c.sortedSet (averageLoad c) loads
          ((idx + j0) % c.sortedSet.length) →
        (∀ j < j0, ¬ probeFits c.ring c.sortedSet (averageLoad c) loads
          ((idx + j) % c.sortedSet.length)) →
        ∃ m, ownerAt c.ring c.sortedSet ((idx + j0) % c.sortedSet.length)
            = some m ∧
          distributeWithLoad c partID idx parts loads
            = .ok (insertA partID m parts,
                insertA m ((lookupA m loads).getD 0 + 1) loads))) := by
  intro c partID idx parts loads hidx hres
  constructor
  · exact probe_error_iff hres _ idx parts loads hidx
  · intro j0 hj0 hfit hmin
    exact probe_first_fit hres _ idx parts loads j0 hidx hj0 hfit hmin

/-- Claim C2, witness: with two virtual nodes the probe may visit one node,
and it assigns the partition to the fitting owner found there. -/
theorem C2_witness :
    distributeWithLoad c2w 0 0 [] [] = .ok (insertA 0 "a" [], insertA "a" 1 []) := by
  obtain ⟨m, hm, heq⟩ := (C2_thm c2w 0 0 [] [] (by decide) (by decide)).2 0
    (by decide) ⟨"a", by rfl, by decide⟩ (fun j hj => absurd hj (by omega))
  have h2 : ownerAt c2w.ring c2w.sortedSet ((0 + 0) % c2w.sortedSet.length)
      = some "a" := by rfl
  rw [h2] at hm
  injection hm with hm2
  subst hm2
  exact heq

/-- Claim C6: adding a member whose name is already present, or removing a
name that is not present, returns with the state unchanged, and adding the
same name twice produces exactly the state produced by adding it once. -/
theorem C6_thm :
    ∀ (c : Consistent) (name : String),
      (name ∈ c.members → Add c name = .ok c) ∧
      (name ∉ c.members → Remove c name = .ok c) ∧
      (∀ c1, Add c name = .ok c1 → Add c1 name = .ok c1) := by
  intro c name
  refine ⟨?_, ?_, ?_⟩
  · intro h
    unfold Add
    rw [if_pos h]
  · intro h
    unfold Remove
    rw [if_neg h]
  · intro c1 hA
    unfold Add at hA ⊢
    by_cases h : name ∈ c.members
    · rw [if_pos h] at hA
      cases hA
      rw [if_pos h]
    · rw [if_neg h] at hA
      obtain ⟨hm, _, _, _, _, _, _, _, _, _⟩ := distributePartitions_ok_fields hA
      have hmem : name ∈ c1.members := by
        rw [hm]
        exact mem_add_members.2 (Or.inr rfl)
      rw [if_pos hmem]

/-- Claim C6, witness: removing an unknown name from the fresh empty state
leaves it unchanged. -/
theorem C6_witness :
    Remove (initC ⟨1, 1, lf1⟩ testHash) "x" = .ok (initC ⟨1, 1, lf1⟩ testHash) :=
  (C6_thm (initC ⟨1, 1, lf1⟩ testHash) "x").2.1 (by decide)

/-- Claim C8: `GetPartitionOwner` returns the member recorded in the
partition table, returns the explicit no-owner value (`none`) whenever the
table is empty, and `LocateKey` is exactly
`GetPartitionOwner ∘ FindPartitionID`. -/
theorem C8_thm :
    ∀ (c : Consistent) (pid : Nat) (key : Bytes),
      (∀ m, lookupA pid c.partitions = some m → GetPartitionOwner c pid = some m) ∧
      (c.partitions = [] → GetPartitionOwner c pid = none) ∧
      (LocateKey c key = GetPartitionOwner c (FindPartitionID c key)) := by
  intro c pid key
  refine ⟨fun m h => h, ?_, rfl⟩
  intro h
  unfold GetPartitionOwner getPartitionOwner
  rw [h]
  rfl

/-- Claim C8, witness: on the fresh empty state (empty partition table) the
owner lookup returns `none`. -/
theorem C8_witness :
    GetPartitionOwner (initC ⟨1, 1, lf1⟩ testHash) 0 = none :=
  (C8_thm (initC ⟨1, 1, lf1⟩ testHash) 0 []).2.1 (by rfl)

/-- Claim C9: `New` with a non-nil empty member slice runs the distribution
pass over the empty ring and fails with the infeasible-configuration error —
the failing call being the one for partition 0 — whereas `New` with a nil
member slice skips the pass and returns the empty state with empty
partition and load tables. -/
theorem C9_thm :
    ∀ (cfg : Config) (hf : HashFunc),
      New (some []) cfg hf = .error .noRoom ∧
      distributeWithLoad (initC cfg hf) 0 0 [] [] = .error .noRoom ∧
      New none cfg hf = .ok (initC cfg hf) ∧
      (initC cfg hf).partitions = [] ∧ (initC cfg hf).loads = [] ∧
      (initC cfg hf).members = [] ∧ (initC cfg hf).sortedSet = [] := by
  intro cfg hf
  refine ⟨?_, by rfl, by rfl, rfl, rfl, rfl, rfl⟩
  show distributePartitions (initC cfg hf) = .error .noRoom
  unfold distributePartitions
  have hP : 0 < (initC cfg hf).partitionCount := by
    show 0 < (applyDefaults cfg).partitionCount
    unfold applyDefaults
    dsimp only
    by_cases h : cfg.partitionCount = 0
    · rw [if_pos h]
      omega
    · rw [if_neg h]
      omega
  obtain ⟨k, hk⟩ : ∃ k, (initC cfg hf).partitionCount = k + 1 :=
    ⟨(initC cfg hf).partitionCount - 1, by omega⟩
  rw [hk, List.range_succ_eq_map, distributePartitionsAux]
  have hstep : distributeStep (initC cfg hf) 0 [] [] = .error .noRoom := rfl
  rw [hstep]
  rfl

/-- Claim C3: after every distribution pass that completes normally with a
non-empty member set (whose names are unique and whose ring entries point
to members), every member's load is at most
`ceil(ceil(P / |M|) * loadFactor)` and the members' loads sum to exactly the
partition count. -/
theorem C3_thm :
    ∀ (c c' : Consistent), c.members ≠ [] → c.members.Nodup →
      (∀ kv ∈ c.ring, kv.2 ∈ c.members) →
      distributePartitions c = .ok c' →
      (∀ m : String, ((lookupA m c'.loads).getD 0 : ℤ) ≤ specBound c) ∧
      (c.members.map fun m => (lookupA m c'.loads).getD 0).sum
        = c.partitionCount := by
  intro c c' hne hnd hrs hd
  obtain ⟨hcov, hload, hknd, hsum⟩ := distributePartitions_ok_main hrs hd
  obtain ⟨hm, _, _, _, _, _, out, hout, hparts, hloads⟩ :=
    distributePartitions_ok_fields hd
  by_cases hP : c.partitionCount = 0
  · have hloadnil : c'.loads = [] := by
      rw [hloads]
      rw [hP] at hout
      have h0 : (Except.ok (([] : List (Nat × String)), ([] : List (String × Nat)))
          : Except DistErr (List (Nat × String) × List (String × Nat)))
          = .ok out := hout
      cases h0
      rfl
    constructor
    · intro m
      rw [hloadnil, specBound_zero hP]
      simp [lookupA]
    · rw [hloadnil, hP]
      simp [lookupA]
  · have hPpos : 0 < c.partitionCount := by omega
    have havg : 1 ≤ averageLoad c := distributePartitions_ok_avg hPpos hd
    have hbnd := averageLoad_le_specBound hne havg
    constructor
    · intro m
      cases hlk : lookupA m c'.loads with
      | none =>
        show ((0 : ℕ) : ℤ) ≤ specBound c
        omega
      | some v =>
        have hv := hload _ (lookupA_mem hlk)
        show ((v : ℕ) : ℤ) ≤ specBound c
        have := hv.2.2
        omega
    · rw [← hsum]
      refine lookupA_map_sum c'.loads c.members hknd hnd ?_
      intro k hk
      obtain ⟨kv, hkv, hkk⟩ := mem_keysA.1 hk
      have hin := (hload kv hkv).1
      rw [hm] at hin
      exact hkk ▸ hin

/-- Claim C3, witness: the spec's concrete scenario (PartitionCount 23,
ReplicationFactor 20, Load 1.25, three members). -/
theorem C3_witness :
    (preC23.members.map fun m => (lookupA m newC23.loads).getD 0).sum
        = preC23.partitionCount ∧
      ((lookupA "node1" newC23.loads).getD 0 : ℤ) ≤ specBound preC23 := by
  have h := C3_thm preC23 newC23 (by decide) (by decide) (by decide) (by rfl)
  exact ⟨h.2, h.1 "node1"⟩

/-- Claim C4, counterexample: starting from `New({"a"})` and then
`Add("b")` (completing normally), both partitions are owned by `"a"`, so
the load table has no key for the member `"b"` — the load table's keys are
not the current member names. -/
theorem C4_counterexample :
    ((New (some ["a"]) ⟨2, 2, lf2⟩ hf2).bind (fun c => Add c "b")).map
        (fun c => (c.loads, c.members)) = .ok ([("a", 2)], ["a", "b"]) ∧
      ¬ ("b" ∈ keysA [(("a" : String), (2 : Nat))]) :=
  ⟨by decide, by decide⟩

/-- Claim C4, amended: after any sequence of `Add`/`Remove` operations that
completes normally and leaves at least one member, the partition table maps
every partition id in `[0, P)` to exactly one owner drawn from the current
member set, and every key of the load table is a current member name with a
load of at least 1 (members with zero assigned partitions have no key). -/
theorem C4_thm :
    ∀ c : Consistent, Reachable c → c.members ≠ [] →
      (∀ pid < c.partitionCount,
        ∃ m, lookupA pid c.partitions = some m ∧ m ∈ c.members) ∧
      (∀ kv ∈ c.loads, kv.1 ∈ c.members ∧ 1 ≤ kv.2) := by
  intro c hr hne
  have hI := inv_reachable hr
  exact ⟨hI.cover hne, hI.loads_sound hne⟩

/-- Claim C4, witness: partition 0 of the two-member state reached through
`New` and `Add` has an owner among the current members. -/
theorem C4_witness :
    ∃ m, lookupA 0 c4w.partitions = some m ∧ m ∈ c4w.members := by
  have hre : Reachable c4w :=
    Reachable.addC c4w0 "b" c4w
      (Reachable.newC (some ["a"]) ⟨2, 2, lf2⟩ hf2 c4w0 (by rfl)) (by rfl)
  exact (C4_thm c4w hre (by decide)).1 0 (by decide)

/-- Claim C5, counterexample: removing the sole member of a reachable
one-member state empties the partition table but leaves the load table
unchanged (still `[("a", 1)]`), so the load table is not cleared. -/
theorem C5_counterexample :
    (Remove c5pre "a").map (fun c => (c.partitions, c.loads))
        = .ok ([], [("a", 1)]) ∧
      ([(("a" : String), (1 : Nat))] : List (String × Nat)) ≠ [] :=
  ⟨by decide, by decide⟩

/-- Claim C5, amended: removing the sole remaining member yields an empty
partition table and an empty member set without running the assigner, but
the load table keeps the entries of the previous pass; re-adding any member
afterward rebuilds a fully valid partition table over the singleton member
set. -/
theorem C5_thm :
    ∀ (c : Consistent) (name : String), Reachable c → c.members = [name] →
      ∃ c', Remove c name = .ok c' ∧ c'.partitions = [] ∧ c'.members = [] ∧
        c'.loads = c.loads ∧
        ∀ m c'', Add c' m = .ok c'' → c''.members = [m] ∧
          ∀ pid < c''.partitionCount,
            ∃ mm, lookupA pid c''.partitions = some mm ∧ mm ∈ c''.members := by
  intro c name hr hmem
  have hin : name ∈ c.members := by
    rw [hmem]
    exact List.mem_cons_self name []
  have hrc : (removeCore c name).members = [] := by
    show c.members.erase name = []
    rw [hmem]
    simp
  have hz : (removeCore c name).members.length = 0 := by
    rw [hrc]
    rfl
  have hrem : Remove c name = .ok { removeCore c name with partitions := [] } := by
    rw [Remove_eq_of_mem hin, if_pos hz]
  refine ⟨_, hrem, rfl, hrc, rfl, ?_⟩
  intro m c'' hAdd
  have hre2 : Reachable { removeCore c name with partitions := [] } :=
    Reachable.removeC c name _ hr hrem
  have hre3 : Reachable c'' := Reachable.addC _ m c'' hre2 hAdd
  unfold Add at hAdd
  have hnotin : ¬ m ∈ ({ removeCore c name with partitions := [] }
      : Consistent).members := by
    show ¬ m ∈ (removeCore c name).members
    rw [hrc]
    simp
  rw [if_neg hnotin] at hAdd
  obtain ⟨hm'', _, _, _, _, _, _, _, _, _⟩ := distributePartitions_ok_fields hAdd
  have hmem'' : c''.members = [m] := by
    rw [hm'', add_members_eq]
    rw [show ({ removeCore c name with partitions := [] }
        : Consistent).members = (removeCore c name).members from rfl, hrc]
    simp
  refine ⟨hmem'', ?_⟩
  have hI := inv_reachable hre3
  exact hI.cover (by rw [hmem'']; exact List.cons_ne_nil m [])

/-- Claim C5, witness: the concrete one-member state. -/
theorem C5_witness :
    ∃ c', Remove c5pre "a" = .ok c' ∧ c'.partitions = [] ∧ c'.members = [] ∧
      c'.loads = c5pre.loads ∧
      ∀ m c'', Add c' m = .ok c'' → c''.members = [m] ∧
        ∀ pid < c''.partitionCount,
          ∃ mm, lookupA pid c''.partitions = some mm ∧ mm ∈ c''.members :=
  C5_thm c5pre "a"
    (Reachable.newC (some ["a"]) ⟨1, 2, lf2⟩ testHash c5pre (by rfl))
    (by decide)

/-- Claim C7: with unique member names and a hash function injective on
them, `getClosestN` (underlying `GetClosestN` and
`GetClosestNForPartition`) fails with the insufficient-members error when
`count` exceeds the member count, and for `1 ≤ count ≤ |M|` (given the
partition's owner is a member, as in every reachable state) returns exactly
`count` distinct members whose first element is that owner. -/
theorem C7_thm :
    ∀ (c : Consistent) (partID count : Nat),
      c.members.Nodup →
      (∀ a ∈ c.members, ∀ b ∈ c.members,
        c.hashFunc (strBytes a) = c.hashFunc (strBytes b) → a = b) →
      (c.members.length < count →
        getClosestN c partID count = .error .insufficientMembers) ∧
      (GetClosestNForPartition c partID count = getClosestN c partID count) ∧
      (∀ key, GetClosestN c key count
        = getClosestN c (FindPartitionID c key) count) ∧
      (∀ ow, getPartitionOwner c partID = some ow → ow ∈ c.members →
        1 ≤ count → count ≤ c.members.length →
        ∃ res, getClosestN c partID count = .ok res ∧ res.length = count ∧
          res.Nodup ∧ res.head? = some ow) := by
  intro c partID count hnd hinj
  refine ⟨?_, rfl, fun key => rfl, ?_⟩
  · intro h
    unfold getClosestN
    rw [if_pos h]
  · intro ow how howm h1 h2
    exact getClosestN_props c partID count hnd hinj how howm h1 h2

/-- Claim C7, witness: the two-member state; asking for 2 closest members
of partition 0 returns 2 distinct members led by the owner `"a"`. -/
theorem C7_witness :
    ∃ res, getClosestN c4w 0 2 = .ok res ∧ res.length = 2 ∧ res.Nodup ∧
      res.head? = some "a" :=
  (C7_thm c4w 0 2 (by decide) (by decide)).2.2.2 "a" (by rfl) (by decide)
    (by decide) (by decide)

/-- Claim C10: `New` does not deduplicate its initial member list — the
sorted set of the constructed state is a permutation of the concatenation,
with multiplicity, of every list entry's `R` virtual-node hashes, while the
member map holds each name once; concretely, `New({"a","a"})` with
`ReplicationFactor 1` yields a `sortedSet` containing the same hash twice
and the member list `["a"]`. -/
theorem C10_thm :
    (∀ (ms : List String) (cfg : Config) (hf : HashFunc) (c : Consistent),
      New (some ms) cfg hf = .ok c →
      c.sortedSet.Perm (ms.flatMap (fun name =>
        (List.range (applyDefaults cfg).replicationFactor).map
          (fun i => hf (vnodeKey name i)))) ∧
      (∀ x, x ∈ c.members ↔ x ∈ ms) ∧ c.members.Nodup) ∧
    (New (some ["a", "a"]) ⟨2, 1, lf1⟩ testHash).map
      (fun c => (c.sortedSet, c.members))
      = .ok ([testHash (vnodeKey "a" 0), testHash (vnodeKey "a" 0)], ["a"]) := by
  constructor
  · intro ms cfg hf c hok
    unfold New at hok
    obtain ⟨hm, _, _, _, hss, _, _, _, _, _⟩ := distributePartitions_ok_fields hok
    obtain ⟨hperm, hmem, hnd⟩ := foldl_add_props ms (initC cfg hf)
    refine ⟨?_, ?_, ?_⟩
    · rw [hss]
      exact hperm
    · intro x
      rw [hm, hmem x]
      simp [initC]
    · rw [hm]
      refine hnd ?_
      show List.Nodup ([] : List String)
      exact List.nodup_nil
  · decide

/-- Claim C10, witness: the duplicated two-entry list `{"a","a"}`. -/
theorem C10_witness :
    c10w.sortedSet.Perm (["a", "a"].flatMap (fun name =>
      (List.range (applyDefaults ⟨2, 1, lf1⟩).replicationFactor).map
        (fun i => testHash (vnodeKey name i)))) ∧
    (∀ x, x ∈ c10w.members ↔ x ∈ ["a", "a"]) ∧ c10w.members.Nodup :=
  C10_thm.1 ["a", "a"] ⟨2, 1, lf1⟩ testHash c10w (by rfl)

end LBHashing
